import Mathlib

/-!
# Verification of the text-scrubber geo matching engine

Shallow embedding of the core of `text_scrubber/geo` (the approximate string
matching engine, the bound derivation, the normalization orchestration and the
substring extraction) together with proofs and refutations of the frozen claims
about it.

Conventions:
* Python strings are `List Char`; similarity scores (Python floats that are
  always ratios of small integers here) are `ℚ`.
* Fallible Python code (code that can raise) is embedded with `Except PyErr`.
* Dictionaries keyed by integers are association lists.
-/

namespace TextScrubber

/-- Errors a Python run can raise in the embedded fragment. -/
inductive PyErr where
  | typeError : PyErr
  | keyError : PyErr
  deriving DecidableEq, Repr

instance {ε α : Type} [DecidableEq ε] [DecidableEq α] : DecidableEq (Except ε α) :=
  fun x y =>
    match x, y with
    | .error e, .error f => decidable_of_iff (e = f) (by simp)
    | .error _, .ok _ => isFalse (fun h => Except.noConfusion h)
    | .ok _, .error _ => isFalse (fun h => Except.noConfusion h)
    | .ok a, .ok b => decidable_of_iff (a = b) (by simp)

/-!
## Levenshtein similarity (the semantics of `Levenshtein.ratio`)

`Levenshtein.ratio(a, b)` of the `python-Levenshtein` library is
`(|a| + |b| - dist) / (|a| + |b|)` where `dist` is the edit distance with
substitutions weighted 2 (equivalently the insert/delete-only distance), and
`1.0` when both strings are empty.  This matches the repository's test
expectations (`ratio("helo", "hello") = 8/9`, `ratio("Belgum", "Belgium") =
12/13`).  We define the distance recursively and relate it to the longest
common subsequence.
-/

/-- Length of a longest common subsequence of two lists. -/
def lcs [DecidableEq α] : List α → List α → ℕ
  | [], _ => 0
  | _, [] => 0
  | a :: as, b :: bs =>
      if a = b then lcs as bs + 1 else max (lcs as (b :: bs)) (lcs (a :: as) bs)
termination_by xs ys => xs.length + ys.length
decreasing_by all_goals simp_arith

/-- Insert/delete edit distance (= Levenshtein distance with substitution
weight 2), the distance underlying `Levenshtein.ratio`. -/
def indelDist [DecidableEq α] : List α → List α → ℕ
  | [], bs => bs.length
  | as, [] => as.length
  | a :: as, b :: bs =>
      if a = b then indelDist as bs
      else 1 + min (indelDist as (b :: bs)) (indelDist (a :: as) bs)
termination_by xs ys => xs.length + ys.length
decreasing_by all_goals simp_arith

/-!
## Character-multiset overlap

`get_char_overlap` (via the Cython kernel `overlap_c.get_overlap`, whose source
is not part of the tree) computes, for a query and a candidate, the sum over
character ids of the minimum of the two character-occurrence counts.
`charOverlap` below is that sum; query characters whose id exceeds the
matrix width have count `0` in every candidate row of the bucket, so the
truncation in `get_char_overlap` never changes the value.
-/

/-- Modelled from the spec: the character-overlap kernel (`overlap_c.get_overlap`,
a Cython module not present in the tree) is "a vectorized sum-of-minimums
between the query's character-count vector and each candidate's stored
vector", i.e. the size of the multiset intersection. -/
def charOverlap [DecidableEq α] (a b : List α) : ℕ :=
  ∑ c ∈ (a ++ b).toFinset, min (a.count c) (b.count c)

/-!
## `Levenshtein.ratio`

The similarity score used throughout the engine (library function, so embedded
by its documented semantics; `ratio("", "") = 1.0`).
-/

/-- The semantics of `Levenshtein.ratio`: `(|a| + |b| - indelDist a b) / (|a| + |b|)`,
and `1.0` when both strings are empty. -/
def levRatio (a b : List Char) : ℚ :=
  if a.length + b.length = 0 then 1
  else ((a.length : ℚ) + b.length - indelDist a b) / ((a.length : ℚ) + b.length)

/-- The probe value computed by the size-bound loops:
`Levenshtein.ratio('a' * q, 'a' * m)`. -/
def levRatioRep (q m : ℕ) : ℚ :=
  levRatio (List.replicate q 'a') (List.replicate m 'a')

/-- The probe value computed by the overlap-floor loop:
`Levenshtein.ratio('a' * q, 'b' * (c - k) + 'a' * k)`. -/
def levOverlapProbe (q c k : ℕ) : ℚ :=
  levRatio (List.replicate q 'a') (List.replicate (c - k) 'b' ++ List.replicate k 'a')

/-!
## `find_levenshtein_bounds`

The first `while` loop shrinks `lower_bound` from `query_size` down (possibly
to `-1`); the second grows `upper_bound` from `query_size` up; for every
candidate size in range a third loop shrinks the overlap floor from the
candidate size down.  The growing loop terminates because the probe value
`2q/(q+u)` eventually drops below `min_score > 0`; it is embedded with an
explicit fuel that provably suffices.  `min_score == 0.0` is special-cased in
the source exactly as here.
-/

def levLowerAux (q : ℕ) (s : ℚ) : ℕ → ℤ
  | 0 => if s ≤ levRatioRep q 0 then -1 else 0
  | m + 1 => if s ≤ levRatioRep q (m + 1) then levLowerAux q s m else ((m + 1 : ℕ) : ℤ)

/-- Final value of the mutable `lower_bound` after the first probing loop. -/
def levLowerFinal (q : ℕ) (s : ℚ) : ℤ := levLowerAux q s q

def levUpperAux (q : ℕ) (s : ℚ) : ℕ → ℕ → ℕ
  | 0, u => u
  | f + 1, u => if s ≤ levRatioRep q u then levUpperAux q s f (u + 1) else u

/-- Fuel sufficient for the growing loop to reach its exit condition. -/
def levUpperFuel (q : ℕ) (s : ℚ) : ℕ := ⌈(2 * q : ℚ) / s⌉₊ + 2

/-- Final value of the mutable `upper_bound` after the second probing loop. -/
def levUpperFinal (q : ℕ) (s : ℚ) : ℕ := levUpperAux q s (levUpperFuel q s) q

def levFloorAux (q : ℕ) (s : ℚ) (c : ℕ) : ℕ → ℤ
  | 0 => if s ≤ levOverlapProbe q c 0 then -1 else 0
  | k + 1 => if s ≤ levOverlapProbe q c (k + 1) then levFloorAux q s c k else ((k + 1 : ℕ) : ℤ)

/-- The size `m` is strictly below an upper bound that is either a number or
`np.inf` (`none`). -/
def belowUpper (m : ℕ) : Option ℕ → Prop
  | none => True
  | some v => m < v

instance instDecidableBelowUpper (m : ℕ) (u : Option ℕ) : Decidable (belowUpper m u) :=
  match u with
  | none => isTrue trivial
  | some v => Nat.decLt m v

/-- `_LEVENSHTEIN_SIZE_BOUNDS[min_score][query_size]`: the
`(lower (inclusive), upper (exclusive))` length range (`upper` is `np.inf`,
modelled as `none`, when `min_score == 0.0`). -/
def levSizeBounds (q : ℕ) (s : ℚ) : ℕ × Option ℕ :=
  if s = 0 then (0, none)
  else ((levLowerFinal q s + 1).toNat, some (levUpperFinal q s))

/-- `_LEVENSHTEIN_OVERLAP_BOUNDS[min_score][query_size][candidate_size]`
(a `defaultdict(int)`, i.e. constantly `0`, when `min_score == 0.0`). -/
def levOverlapFloor (q : ℕ) (s : ℚ) (c : ℕ) : ℕ :=
  if s = 0 then 0 else (levFloorAux q s c c + 1).toNat

/-!
## Trigram similarity and `find_trigram_bounds`

Trigram sets are sets of integer trigram ids (`Finset ℕ`).  The bound-probing
loops operate on `query = set(range(query_size))`, shrink it to its first
`lower_bound` elements (any `k`-subset gives the same similarity `k/q`) and
grow it with fresh elements (giving `range upper_bound` for a non-empty
query; the source raises on an empty trigram set, which `get_trigram_tokens`
never produces).
-/

/-- `trigram_similarity_naive`: the Jaccard similarity of two trigram sets. -/
def trigramSimilarityNaive (a b : Finset ℕ) : ℚ :=
  if a.card = 0 ∧ b.card = 0 then 1
  else ((a ∩ b).card : ℚ) / ((a.card : ℚ) + b.card - (a ∩ b).card)

/-- The probe value `trigram_similarity_naive(set(range(q)), set(range(m)))`
computed by the trigram bound loops. -/
def tgProbe (q m : ℕ) : ℚ := trigramSimilarityNaive (Finset.range q) (Finset.range m)

def tgLowerAux (q : ℕ) (s : ℚ) : ℕ → ℤ
  | 0 => if s ≤ tgProbe q 0 then -1 else 0
  | m + 1 => if s ≤ tgProbe q (m + 1) then tgLowerAux q s m else ((m + 1 : ℕ) : ℤ)

def tgLowerFinal (q : ℕ) (s : ℚ) : ℤ := tgLowerAux q s q

def tgUpperAux (q : ℕ) (s : ℚ) : ℕ → ℕ → ℕ
  | 0, u => u
  | f + 1, u => if s ≤ tgProbe q u then tgUpperAux q s f (u + 1) else u

def tgUpperFuel (q : ℕ) (s : ℚ) : ℕ := ⌈(q : ℚ) / s⌉₊ + 2

def tgUpperFinal (q : ℕ) (s : ℚ) : ℕ := tgUpperAux q s (tgUpperFuel q s) q

/-- `_TRIGRAM_SIZE_BOUNDS[min_score][query_size]`: the
`(lower (inclusive), upper (exclusive))` trigram-count range (`upper` is
`np.inf`, modelled as `none`, when `min_score == 0.0`). -/
def trigramBounds (q : ℕ) (s : ℚ) : ℕ × Option ℕ :=
  if s = 0 then (0, none)
  else ((tgLowerFinal q s + 1).toNat, some (tgUpperFinal q s))

/-!
## `find_closest_string_levenshtein`

A bucket (`candidates[size]`) holds the parallel lists `levenshtein_tokens`
(cleaned candidate strings) and `indices` (`(canonical_idx, idx)` pairs); the
`char_matrix` rows are the character-count vectors of the tokens, so
`get_char_overlap` on a row is `charOverlap` with the token.  The global
char-id map is a bijection on the characters seen, so working on the strings
themselves is equivalent.  The dict of buckets is an association list with
distinct keys.
-/

structure LevBucket where
  levenshtein_tokens : List (List Char)
  indices : List (ℕ × ℕ)
  deriving Repr

/-- The candidates of a bucket, each token paired with its index pair. -/
def bucketEntries (b : LevBucket) : List (List Char × ℕ × ℕ) :=
  b.levenshtein_tokens.zip b.indices

/-- Dict lookup `candidates[size]`. -/
def lookupBucket (cands : List (ℕ × LevBucket)) (size : ℕ) : Option LevBucket :=
  (cands.find? (fun kv => kv.1 = size)).map Prod.snd

/-- `max(candidates.keys(), default=-1) + 1`. -/
def maxKeySucc (cands : List (ℕ × LevBucket)) : ℕ :=
  cands.foldr (fun kv acc => max (kv.1 + 1) acc) 0

/-- `min(size_upper_bound, max(candidates.keys(), default=-1) + 1)`;
`np.inf` (`none`) is larger than everything. -/
def capUpper (u : Option ℕ) (cap : ℕ) : ℕ :=
  match u with
  | none => cap
  | some v => min v cap

/-- One candidate of the inner loop: it is skipped when its character overlap
is below the bucket's overlap floor; otherwise it is scored with
`Levenshtein.ratio` and `overall_best_candidates`/`overall_best_score` are
updated, keeping all candidates tied at the running maximum. -/
def scanStep (query : List Char) (floor : ℕ) (st : List (ℕ × ℕ) × ℚ)
    (e : List Char × ℕ × ℕ) : List (ℕ × ℕ) × ℚ :=
  if floor ≤ charOverlap query e.1 then
    if st.2 ≤ levRatio query e.1 then
      if levRatio query e.1 = st.2 then (st.1 ++ [e.2], st.2)
      else ([e.2], levRatio query e.1)
    else st
  else st

/-- The inner loop over one bucket. -/
def scanBucket (query : List Char) (floor : ℕ)
    (entries : List (List Char × ℕ × ℕ))
    (st : List (ℕ × ℕ) × ℚ) : List (ℕ × ℕ) × ℚ :=
  entries.foldl (scanStep query floor) st

/-- One iteration of the outer loop over bucket sizes (`if size not in
candidates: continue`, else scan the bucket). -/
def scanSize (query : List Char) (s : ℚ) (cands : List (ℕ × LevBucket))
    (st : List (ℕ × ℕ) × ℚ) (size : ℕ) : List (ℕ × ℕ) × ℚ :=
  match lookupBucket cands size with
  | none => st
  | some b =>
      scanBucket query (levOverlapFloor query.length s size) (bucketEntries b) st

/-- `find_closest_string_levenshtein(query, candidates, min_score)`. -/
def find_closest_string_levenshtein (query : List Char)
    (cands : List (ℕ × LevBucket)) (min_score : ℚ) :
    Option (List (ℕ × ℕ) × ℚ) :=
  let bounds := levSizeBounds query.length min_score
  let size_upper := capUpper bounds.2 (maxKeySucc cands)
  let final := (List.range' bounds.1 (size_upper - bounds.1)).foldl
    (scanSize query min_score cands) ([], min_score)
  if final.1 = [] then none else some final

/-- All candidates of all buckets, in bucket order. -/
def allEntries (cands : List (ℕ × LevBucket)) : List (List Char × ℕ × ℕ) :=
  (cands.map (fun kv => bucketEntries kv.2)).flatten

/-- The candidates actually scanned by the main loop, in scan order. -/
def scannedEntries (cands : List (ℕ × LevBucket)) (szs : List ℕ) :
    List (List Char × ℕ × ℕ) :=
  (szs.map (fun size =>
    match lookupBucket cands size with
    | none => []
    | some b => bucketEntries b)).flatten

/-- Running maximum of `min_score` and the ratios of the processed
candidates. -/
def maxScore (query : List Char) (s : ℚ) (P : List (List Char × ℕ × ℕ)) : ℚ :=
  P.foldl (fun acc e => max acc (levRatio query e.1)) s

/-- The loop invariant of `find_closest_string_levenshtein`: after processing
the candidates `P` (in order), the running best score is the maximum of
`min_score` and all processed ratios, and the running best list holds exactly
the index pairs of the processed candidates attaining it. -/
def ScanInv (query : List Char) (s : ℚ) (P : List (List Char × ℕ × ℕ))
    (st : List (ℕ × ℕ) × ℚ) : Prop :=
  st.2 = maxScore query s P ∧
  st.1 = (P.filter (fun e => levRatio query e.1 = st.2)).map (fun e => e.2)

/-!
## Vectorized trigram similarity (`trigram_similarity` vs the naive version)

`optimize_trigram_tokens` turns a list of trigram-id sets into a binary
`csr_matrix`; scipy infers the column count as one more than the largest
column index present (`0` for no entries).  The dot product of a row with the
query indicator vector is the size of the intersection of the row's set with
the query tokens below the column count.
-/

structure TrigramMatrix where
  rows : List (Finset ℕ)
  ncols : ℕ

/-- `optimize_trigram_tokens(trigrams)`. -/
def optimize_trigram_tokens (trigrams : List (Finset ℕ)) : TrigramMatrix :=
  { rows := trigrams
    ncols := (trigrams.map (fun t => t.sup (fun x => x + 1))).foldr max 0 }

/-- `trigram_similarity(query_trigram_tokens, candidates_n_tokens,
trigram_matrix)`: the query indicator vector keeps only tokens below the
matrix width, the overlap is the row–vector dot product, and the score is
`n_overlap / (len(query) + candidates_n_tokens - n_overlap)`. -/
def trigram_similarity (query : Finset ℕ) (candidates_n_tokens : ℕ)
    (M : TrigramMatrix) : List ℚ :=
  M.rows.map (fun r =>
    ((r ∩ query.filter (fun t => t < M.ncols)).card : ℚ) /
      ((query.card : ℚ) + candidates_n_tokens -
        (r ∩ query.filter (fun t => t < M.ncols)).card))

/-!
## `find_in_string`: data types and the overlap resolver

`Range` is the frozen dataclass (its `end` field is named `stop` here, `end`
being a Lean keyword).  `Location` is the result record the extraction code
works with (`canonical_name`, `matched_name`, `country`, `score`), as used by
the repository's tests.  The overlap resolver of `_find_in_string`
(lines 127-179) keeps a status per sorted match (0 = dismissed,
1 = uncertain, 2 = accepted) and sweeps until no status is 1 or a sweep makes
no progress; each sweep is embedded structurally with the already-processed
prefix (`done`) and the rest (`todo`), and the `while` loop with a fuel of
`2n + 2`, within which it provably reaches its exit.
-/

structure Range where
  start : ℕ
  stop : ℕ
  deriving DecidableEq

structure Location where
  canonical_name : List Char
  matched_name : List Char
  country : Option (List Char)
  score : ℚ
  deriving DecidableEq

structure ExtractedLocation where
  location : Location
  substring : List Char
  substring_range : Range
  deriving DecidableEq

/-- `range_has_overlap(range_1, range_2)`. -/
def range_has_overlap : Option Range → Option Range → Bool
  | none, _ => false
  | _, none => false
  | some r1, some r2 => decide (max r1.start r2.start < min r1.stop r2.stop)

/-- The overlap test as called on two matches. -/
def overlapB (m1 m2 : ExtractedLocation) : Bool :=
  range_has_overlap (some m1.substring_range) (some m2.substring_range)

/-- The inner comparison of the resolver: `m2` beats `m1` when it has a
strictly higher score, or an equally high score and a strictly longer
canonical name, or additionally an equally long canonical name and a strictly
shorter original substring (`skip_match` is set for `m1`). -/
def beats (m2 m1 : ExtractedLocation) : Bool :=
  decide (m1.location.score < m2.location.score) ||
    (decide (m1.location.score = m2.location.score) &&
      (decide (m1.location.canonical_name.length < m2.location.canonical_name.length) ||
        (decide (m1.location.canonical_name.length = m2.location.canonical_name.length) &&
          decide (m2.substring.length < m1.substring.length))))

/-- Zero the status of a match overlapping the accepted match `m`. -/
def zeroOut (m : ExtractedLocation) (p : ExtractedLocation × ℕ) :
    ExtractedLocation × ℕ :=
  if overlapB m p.1 then (p.1, 0) else p

/-- One sweep of the resolver (`for idx_1, match_1 in enumerate(matches)`):
statuses 0 and 2 are skipped; an uncertain match is accepted unless some
not-dismissed later match overlapping it beats it; accepting dismisses every
other overlapping match (earlier and later ones alike). -/
def resolveStep : List (ExtractedLocation × ℕ) → List (ExtractedLocation × ℕ) →
    List (ExtractedLocation × ℕ)
  | done, [] => done
  | done, (m, k) :: rest =>
      if k ≠ 1 then resolveStep (done ++ [(m, k)]) rest
      else if rest.any (fun p => p.2 != 0 && overlapB m p.1 && beats p.1 m) then
        resolveStep (done ++ [(m, 1)]) rest
      else
        resolveStep (done.map (zeroOut m) ++ [(m, 2)]) (rest.map (zeroOut m))
termination_by _ todo => todo.length
decreasing_by all_goals simp_arith [List.length_map]

def resolveSweep (l : List (ExtractedLocation × ℕ)) : List (ExtractedLocation × ℕ) :=
  resolveStep [] l

/-- The `while any(... == 1)` loop with its `prev == keep_matches` fail-safe
break; `fuel` bounds the number of sweeps (each non-identical sweep strictly
decreases the total status weight, so `2n + 2` sweeps always suffice). -/
def resolveLoop : ℕ → List (ExtractedLocation × ℕ) → List (ExtractedLocation × ℕ)
  | 0, l => l
  | f + 1, l =>
      if l.any (fun p => p.2 == 1) then
        if resolveSweep l = l then l else resolveLoop f (resolveSweep l)
      else l

/-- `sorted(matches, key=lambda c: -c.location.score)` (a stable sort). -/
def sortMatches (ms : List ExtractedLocation) : List ExtractedLocation :=
  ms.mergeSort (fun a b => decide (b.location.score ≤ a.location.score))

/-- The overlap-resolution phase of `_find_in_string` (sort by descending
score, resolve statuses to a fixed point, return the accepted matches). -/
def resolveOverlaps (ms : List ExtractedLocation) : List ExtractedLocation :=
  ((resolveLoop (2 * ms.length + 2) ((sortMatches ms).map (fun m => (m, 1)))).filter
    (fun p => p.2 == 2)).map (fun p => p.1)

/-- The resolver invariant: an accepted match never overlaps a
not-yet-dismissed one. -/
def NoOverlapInv (l : List (ExtractedLocation × ℕ)) : Prop :=
  l.Pairwise (fun p q =>
    ((p.2 = 2 ∧ q.2 ≠ 0) ∨ (q.2 = 2 ∧ p.2 ≠ 0)) → overlapB p.1 q.1 = false)

/-!
## `normalize_country` and `_find_in_string`

`normalize.py` in this tree predates `resources.py`: the resource builder
stores `(canonical_idx, idx)` pairs in `cleaned_location_map` and never
creates a `'replacements'` key, while `normalize_country` indexes the
`canonical_names` list with the stored pair (a Python `TypeError`) and
subscripts `_COUNTRY_RESOURCES['replacements']` (a `KeyError`).  Both raises
are embedded as `Except.error`; the code after the `'replacements'` access
(pattern table, `find_closest_string` fallback) is unreachable.

The cleaning pipeline (`clean_country`, built on `anyascii` and the generic
`TextScrubber`) is the spec's external collaborator and is passed in as an
opaque function.  The gazetteer data files are not part of the tree; concrete
instances used in witnesses are modelled from the spec.
-/

/-- Dictionary lookup in an association list with string keys. -/
def lookupAssoc {α : Type _} (m : List (List Char × α)) (k : List Char) : Option α :=
  (m.find? (fun kv => kv.1 = k)).map Prod.snd

/-- The country-level resource state built by `add_country_resources`
(restricted to the fields the embedded code paths read.  The builder also
stores `country_to_normalized_country_map`,
`normalized_country_to_country_codes_map` and `replacement_patterns`; it
never stores a `'replacements'` key). -/
structure CountryResources where
  canonical_names : List (List Char)
  cleaned_location_map : List (List Char × (ℕ × ℕ))
  all_country_codes : List (List Char)

/-- `normalize_country(country, min_score_levenshtein, min_score_trigram)`
from `normalize.py`, run against the state built by `resources.py`:

* empty cleaned string → `[]`;
* cleaned string a key of `cleaned_location_map` → the stored value is a
  `(canonical_idx, idx)` pair and `canonical_names[country_idx]` raises
  `TypeError: list indices must be integers`;
* otherwise → `_COUNTRY_RESOURCES['replacements']` raises `KeyError`
  (`add_country_resources` never creates that key), so the replacement,
  pattern and `find_closest_string` branches below it are dead code. -/
def normalize_country (R : CountryResources) (clean_country : List Char → List Char)
    (country : List Char) (min_score_levenshtein min_score_trigram : ℚ) :
    Except PyErr (List Location) :=
  let cleaned_country := clean_country country
  if cleaned_country = [] then .ok []
  else if (lookupAssoc R.cleaned_location_map cleaned_country).isSome then
    .error .typeError
  else
    .error .keyError

/-- Modelled from the spec: enough of the country gazetteer (the resource
data files are not part of the tree) for the spec's Denmark examples —
`Denmark` is a canonical country and its cleaned form `denmark` is a key of
the cleaned-location map. -/
def denmarkResources : CountryResources :=
  { canonical_names := [['D', 'e', 'n', 'm', 'a', 'r', 'k']]
    cleaned_location_map := [(['d', 'e', 'n', 'm', 'a', 'r', 'k'], (0, 0))]
    all_country_codes := [] }

/-- Modelled from the spec: the external cleaning collaborator lowercases and
ASCII-transliterates; on the plain-ASCII single words used in the concrete
instances here it is exactly lowercasing. -/

def specCleanCountry (s : List Char) : List Char := s.map Char.toLower

/-- Python `str.split()` (split on whitespace runs, no empty parts). -/
def pySplit (s : List Char) : List (List Char) :=
  (s.splitOnP (fun c => c.isWhitespace)).filter (fun w => w ≠ [])

/-- `cumsum` from `find_in_string.py`. -/
def cumsumList (x : List ℕ) : List ℕ :=
  (x.foldl (fun (acc : List ℕ × ℕ) e => (acc.1 ++ [acc.2 + e], acc.2 + e)) ([], 0)).1

/-- `' '.join(tokens[start_idx:start_idx + n_tokens])`. -/
def joinSpace (ws : List (List Char)) : List Char :=
  List.intercalate [' '] ws

/-- `.rstrip(' .,-()')`. -/
def pyRstrip (s : List Char) (chars : List Char) : List Char :=
  (s.reverse.dropWhile (fun c => c ∈ chars)).reverse

/-- The characters stripped from the right of every token combination. -/
def rstripChars : List Char := [' ', '.', ',', '-', '(', ')']

/-- Python `max(matches_found, key=lambda m: m.score)`: the first candidate
with maximal score (later candidates replace it only when strictly
greater). -/
def pyMax (l : List Location) : Option Location :=
  match l with
  | [] => none
  | x :: xs => some (xs.foldl (fun acc y => if acc.score < y.score then y else acc) x)

/-- The per-combination threshold selection of `_get_matches`
(`match_threshold if len(combination) > threshold_small else
match_threshold_small`). -/
def selectThreshold (combination : List Char) (match_threshold match_threshold_small : ℚ)
    (threshold_small : ℕ) : ℚ :=
  if threshold_small < combination.length then match_threshold else match_threshold_small

/-- `_get_matches(combination, token_start_idx, start_idx, normalize_func,
match_threshold, match_threshold_small, threshold_small, restrict_countries)`.
The normalization function is passed in as a closure receiving both score
thresholds (the source's branch on `restrict_countries` only decides whether
the country set is forwarded to it).  `token_start_idx[start_idx]` is always
in range at the call sites (`start_idx < len(tokens) + 1`). -/
def getMatches (combination : List Char) (token_start_idx : List ℕ) (start_idx : ℕ)
    (normalize_func : List Char → ℚ → ℚ → Except PyErr (List Location))
    (match_threshold match_threshold_small : ℚ) (threshold_small : ℕ) :
    Except PyErr (Option ExtractedLocation) :=
  let threshold := selectThreshold combination match_threshold match_threshold_small
    threshold_small
  match normalize_func combination threshold threshold with
  | .error e => .error e
  | .ok matches_found =>
      match pyMax matches_found with
      | none => .ok none
      | some m =>
          let str_start_idx := token_start_idx.getD start_idx 0 + start_idx
          .ok (some ⟨m, combination, ⟨str_start_idx, str_start_idx + combination.length⟩⟩)

/-- The first gathering loop of `_find_in_string` (token-window combinations
of `1 .. max_tokens_to_consider - 1` tokens, skipping blacklisted
combinations). -/
def gatherCombos (tokens : List (List Char)) (token_start_idx : List ℕ)
    (clean_func : List Char → List Char)
    (normalize_func : List Char → ℚ → ℚ → Except PyErr (List Location))
    (blacklist : List (List Char)) (match_threshold match_threshold_small : ℚ)
    (threshold_small max_tokens_to_consider : ℕ) :
    Except PyErr (List ExtractedLocation) :=
  ((List.range' 1 (max_tokens_to_consider - 1)).flatMap
    (fun n => (List.range (tokens.length + 1 - n)).map (fun s => (n, s)))).foldlM
    (fun acc p =>
      let combination := pyRstrip (joinSpace ((tokens.drop p.2).take p.1)) rstripChars
      if combination ∈ blacklist ∨ clean_func combination ∈ blacklist then pure acc
      else
        match getMatches combination token_start_idx p.2 normalize_func
            match_threshold match_threshold_small threshold_small with
        | .error e => .error e
        | .ok none => pure acc
        | .ok (some m) => pure (acc ++ [m]))
    []

/-- The last-resort single-token loop of `_find_in_string` (blacklist
ignored, only `whitelist_last_resort` combinations considered). -/
def gatherWhitelist (tokens : List (List Char)) (token_start_idx : List ℕ)
    (normalize_func : List Char → ℚ → ℚ → Except PyErr (List Location))
    (whitelist_last_resort : List (List Char))
    (match_threshold match_threshold_small : ℚ) (threshold_small : ℕ) :
    Except PyErr (List ExtractedLocation) :=
  (List.range tokens.length).foldlM
    (fun acc s =>
      let combination := pyRstrip (joinSpace ((tokens.drop s).take 1)) rstripChars
      if combination ∉ whitelist_last_resort then pure acc
      else
        match getMatches combination token_start_idx s normalize_func
            match_threshold match_threshold_small threshold_small with
        | .error e => .error e
        | .ok none => pure acc
        | .ok (some m) => pure (acc ++ [m]))
    []

/-- `_find_in_string(sample, clean_func, normalize_func, blacklist,
whitelist_last_resort, match_threshold, match_threshold_small,
threshold_small, max_tokens_to_consider)`: gather matches over token-window
combinations, retry with the whitelist when nothing was found and the
blacklist is non-empty, then resolve overlaps. -/
def findInString (sample : List Char) (clean_func : List Char → List Char)
    (normalize_func : List Char → ℚ → ℚ → Except PyErr (List Location))
    (blacklist whitelist_last_resort : List (List Char))
    (match_threshold match_threshold_small : ℚ)
    (threshold_small max_tokens_to_consider : ℕ) :
    Except PyErr (List ExtractedLocation) :=
  let tokens := pySplit sample
  let token_start_idx := 0 :: cumsumList (tokens.map List.length)
  match gatherCombos tokens token_start_idx clean_func normalize_func blacklist
      match_threshold match_threshold_small threshold_small max_tokens_to_consider with
  | .error e => .error e
  | .ok found =>
      match (if found = [] ∧ blacklist ≠ [] then
          gatherWhitelist tokens token_start_idx normalize_func whitelist_last_resort
            match_threshold match_threshold_small threshold_small
        else .ok found) with
      | .error e => .error e
      | .ok found2 => .ok (resolveOverlaps found2)

/-- `str.lower()` (ASCII). -/
def pyLower (s : List Char) : List Char := s.map Char.toLower

/-- `find_country_in_string(sample, ...)`: the blacklist is the country codes,
their lowercase forms and `'u'`; the last-resort whitelist is the country
codes. -/
def find_country_in_string (R : CountryResources)
    (clean_country : List Char → List Char) (sample : List Char)
    (match_threshold match_threshold_small : ℚ)
    (threshold_small max_tokens_to_consider : ℕ) :
    Except PyErr (List ExtractedLocation) :=
  let blacklist := R.all_country_codes ++ R.all_country_codes.map pyLower ++ [['u']]
  let whitelist_last_resort := R.all_country_codes
  findInString sample clean_country
    (fun combo msl mst => normalize_country R clean_country combo msl mst)
    blacklist whitelist_last_resort match_threshold match_threshold_small
    threshold_small max_tokens_to_consider

/-!
## `process_multiple_names`

The dedup tie-break sorts the candidates by the key
`(-len(RE_ALPHA.sub('', name)), -len(name), name)` — `RE_ALPHA` is
`[a-zA-Z]`, so the first component counts the characters that are **not**
ASCII letters — and returns the candidate at the original index of the first
sorted entry (Python's sort is stable, and string comparison is by code
point). -/

/-- `len(RE_ALPHA.sub('', name))`: the number of characters outside
`[a-zA-Z]`. -/
def nonAlphaCount (s : List Char) : ℕ :=
  (s.filter (fun c => !(('a' ≤ c && c ≤ 'z') || ('A' ≤ c && c ≤ 'Z')))).length

/-- The number of non-ASCII characters (code point `≥ 128`); the reading of
criterion (a) in the spec's words ("most non-ASCII letters", the docstring's
"most non-ascii characters"). -/
def nonAsciiCount (s : List Char) : ℕ :=
  (s.filter (fun c => 128 ≤ c.toNat)).length

/-- Python string `<` (lexicographic by code point). -/
def strLt : List Char → List Char → Bool
  | [], [] => false
  | [], _ :: _ => true
  | _ :: _, [] => false
  | a :: as, b :: bs =>
      if a.toNat < b.toNat then true
      else if b.toNat < a.toNat then false
      else strLt as bs

/-- The sort key of `process_multiple_names` for one canonical name. -/
def pmKeyOf (c : Location) : ℕ × ℕ × List Char :=
  (nonAlphaCount c.canonical_name, c.canonical_name.length, c.canonical_name)

/-- Python `<` on the tuples `(-t0, -t1, t2)`: larger non-alpha count first,
then longer name, then code-point-smaller name. -/
def pmTupLt (x y : ℕ × ℕ × List Char) : Bool :=
  (decide (y.1 < x.1)) ||
    (decide (x.1 = y.1) &&
      ((decide (y.2.1 < x.2.1)) ||
        (decide (x.2.1 = y.2.1) && strLt x.2.2 y.2.2)))

/-- The comparator realising Python's stable ascending sort on the keys (the
index component is not part of the key). -/
def pmLe (a b : (ℕ × ℕ × List Char) × ℕ) : Bool := !pmTupLt b.1 a.1

/-- `process_multiple_names(candidates)`: `None` stands for the `IndexError`
on an empty candidate list (the callers always pass non-empty groups);
`candidates.get? idx` is in range by construction. -/
def process_multiple_names (candidates : List Location) : Option Location :=
  match (candidates.enum.map (fun p => (pmKeyOf p.2, p.1))).mergeSort pmLe with
  | [] => none
  | k :: _ => candidates.get? k.2

/-- Candidate `"ab-"` (one non-alphabetic character, the hyphen; no
non-ASCII character). -/
def locDashAB : Location :=
  ⟨['a', 'b', '-'], ['a', 'b', '-'], none, 1⟩

/-- Candidate `"àbc"` (one non-alphabetic character, the accented `à`,
which is also non-ASCII). -/
def locAccAB : Location :=
  ⟨['à', 'b', 'c'], ['à', 'b', 'c'], none, 1⟩

/-- Candidate `"Chenet"` from the spec's example. -/
def locChenet : Location :=
  ⟨['C', 'h', 'e', 'n', 'e', 't'], ['C', 'h', 'e', 'n', 'e', 't'], none, 1⟩

/-- Candidate `"Chênet"` from the spec's example. -/
def locChenetAcc : Location :=
  ⟨['C', 'h', 'ê', 'n', 'e', 't'], ['C', 'h', 'ê', 'n', 'e', 't'], none, 1⟩

/-- The toy single-candidate normalization collaborator used to instantiate
the extraction pipeline at a concrete input. -/
def nfToy : List Char → ℚ → ℚ → Except PyErr (List Location) :=
  fun _ _ _ => .ok [⟨['a'], ['a'], none, 1⟩]

/-- The single match `nfToy` produces on the sample `"ab"`. -/
def elToy : ExtractedLocation :=
  ⟨⟨['a'], ['a'], none, 1⟩, ['a', 'b'], ⟨0, 2⟩⟩

/-- The canonical country `"United Kingdom"` as matched from the code
`"UK"`. -/
def ukLoc : Location :=
  ⟨['U', 'n', 'i', 't', 'e', 'd', ' ', 'K', 'i', 'n', 'g', 'd', 'o', 'm'],
   ['U', 'K'], none, 1⟩

/-- A normalization collaborator that matches `"UK"` to the canonical name
`"United Kingdom"`. -/
def nfUK : List Char → ℚ → ℚ → Except PyErr (List Location) :=
  fun _ _ _ => .ok [ukLoc]

/-- The extracted match `_get_matches` builds for the combination `"UK"`. -/
def elUK : ExtractedLocation := ⟨ukLoc, ['U', 'K'], ⟨0, 2⟩⟩

/-!
## Theorems
-/

/-- `indelDist` and `lcs` determine each other. -/
theorem indelDist_add_two_lcs [DecidableEq α] (as bs : List α) :
    indelDist as bs + 2 * lcs as bs = as.length + bs.length := by
  induction as, bs using lcs.induct (α := α) with
  | case1 bs => simp [indelDist, lcs]
  | case2 as => cases as <;> simp [indelDist, lcs]
  | case3 as b bs ih =>
      simp only [indelDist, lcs, eq_self_iff_true, if_true, List.length_cons]
      omega
  | case4 a as b bs hab ih1 ih2 =>
      simp only [indelDist, lcs, if_neg hab, List.length_cons] at *
      omega

theorem lcs_le_length_left [DecidableEq α] (as bs : List α) :
    lcs as bs ≤ as.length := by
  induction as, bs using lcs.induct (α := α) with
  | case1 bs => simp [lcs]
  | case2 as => cases as <;> simp [lcs]
  | case3 as b bs ih => simpa [lcs] using ih
  | case4 a as b bs hab ih1 ih2 =>
      simp only [lcs, if_neg hab, max_le_iff, List.length_cons]
      exact ⟨le_trans ih1 (Nat.le_succ _), ih2⟩

theorem lcs_le_length_right [DecidableEq α] (as bs : List α) :
    lcs as bs ≤ bs.length := by
  induction as, bs using lcs.induct (α := α) with
  | case1 bs => simp [lcs]
  | case2 as => cases as <;> simp [lcs]
  | case3 as b bs ih => simpa [lcs] using ih
  | case4 a as b bs hab ih1 ih2 =>
      simp only [lcs, if_neg hab, max_le_iff, List.length_cons]
      exact ⟨ih1, le_trans ih2 (Nat.le_succ _)⟩

theorem charOverlap_eq_inter_card [DecidableEq α] (a b : List α) :
    charOverlap a b = Multiset.card ((a : Multiset α) ∩ (b : Multiset α)) := by
  classical
  have hsub : ((a : Multiset α) ∩ (b : Multiset α)).toFinset ⊆ (a ++ b).toFinset := by
    intro x hx
    simp only [Multiset.mem_toFinset, Multiset.mem_inter] at hx
    simp only [List.toFinset_append, Finset.mem_union, List.mem_toFinset]
    exact Or.inl (by exact_mod_cast hx.1)
  calc ∑ c ∈ (a ++ b).toFinset, min (a.count c) (b.count c)
      = ∑ c ∈ (a ++ b).toFinset, Multiset.count c ((a : Multiset α) ∩ (b : Multiset α)) := by
        refine Finset.sum_congr rfl ?_
        intro x _
        rw [Multiset.count_inter, Multiset.coe_count, Multiset.coe_count]
    _ = ∑ c ∈ ((a : Multiset α) ∩ (b : Multiset α)).toFinset,
          Multiset.count c ((a : Multiset α) ∩ (b : Multiset α)) := by
        refine (Finset.sum_subset hsub ?_).symm
        intro x _ hx
        rw [Multiset.count_eq_zero]
        simpa [Multiset.mem_toFinset] using hx
    _ = Multiset.card ((a : Multiset α) ∩ (b : Multiset α)) :=
        Multiset.toFinset_sum_count_eq _

/-- A cons on both sides of a multiset intersection factors out. -/
theorem cons_inter_cons [DecidableEq α] (x : α) (s t : Multiset α) :
    (x ::ₘ s) ∩ (x ::ₘ t) = x ::ₘ (s ∩ t) := by
  apply Multiset.ext.2
  intro c
  simp only [Multiset.count_inter, Multiset.count_cons]
  split_ifs <;> omega

/-- A longest common subsequence is bounded by the multiset overlap. -/
theorem lcs_le_inter_card [DecidableEq α] (as bs : List α) :
    lcs as bs ≤ Multiset.card ((as : Multiset α) ∩ (bs : Multiset α)) := by
  induction as, bs using lcs.induct (α := α) with
  | case1 bs => simp [lcs]
  | case2 as => cases as <;> simp [lcs]
  | case3 as b bs ih =>
      have hco : ((b :: as : List α) : Multiset α) ∩ ((b :: bs : List α) : Multiset α)
          = b ::ₘ ((as : Multiset α) ∩ (bs : Multiset α)) := by
        rw [← Multiset.cons_coe, ← Multiset.cons_coe, cons_inter_cons]
      simp only [lcs, eq_self_iff_true, if_true, hco, Multiset.card_cons]
      omega
  | case4 a as b bs hab ih1 ih2 =>
      simp only [lcs, if_neg hab, max_le_iff]
      constructor
      · refine le_trans ih1 (Multiset.card_le_card ?_)
        refine Multiset.le_inter
          (le_trans (Multiset.inter_le_left _ _) ?_) (Multiset.inter_le_right _ _)
        rw [← Multiset.cons_coe]
        exact Multiset.le_cons_self _ _
      · refine le_trans ih2 (Multiset.card_le_card ?_)
        refine Multiset.le_inter (Multiset.inter_le_left _ _)
          (le_trans (Multiset.inter_le_right _ _) ?_)
        rw [← Multiset.cons_coe]
        exact Multiset.le_cons_self _ _

theorem lcs_le_charOverlap [DecidableEq α] (as bs : List α) :
    lcs as bs ≤ charOverlap as bs := by
  rw [charOverlap_eq_inter_card]
  exact lcs_le_inter_card as bs

/-- Any common sublist bounds the LCS length from below. -/
theorem length_le_lcs_of_sublist [DecidableEq α] :
    ∀ as bs zs : List α, List.Sublist zs as → List.Sublist zs bs →
      zs.length ≤ lcs as bs := by
  intro as bs
  induction as, bs using lcs.induct (α := α) with
  | case1 bs =>
      intro zs h1 _
      rw [List.sublist_nil.1 h1]
      simp [lcs]
  | case2 as =>
      intro zs _ h2
      rw [List.sublist_nil.1 h2]
      cases as <;> simp [lcs]
  | case3 as b bs ih =>
      intro zs h1 h2
      cases zs with
      | nil => simp
      | cons z zs' =>
          simp only [lcs, eq_self_iff_true, if_true, List.length_cons]
          by_cases hz : z = b
          · subst hz
            have h1' : List.Sublist zs' as := by
              cases h1 with
              | cons _ h => exact (List.sublist_cons_self z zs').trans h
              | cons₂ _ h => exact h
            have h2' : List.Sublist zs' bs := by
              cases h2 with
              | cons _ h => exact (List.sublist_cons_self z zs').trans h
              | cons₂ _ h => exact h
            exact Nat.succ_le_succ (ih zs' h1' h2')
          · have h1' : List.Sublist (z :: zs') as := by
              cases h1 with
              | cons _ h => exact h
              | cons₂ _ h => exact absurd rfl hz
            have h2' : List.Sublist (z :: zs') bs := by
              cases h2 with
              | cons _ h => exact h
              | cons₂ _ h => exact absurd rfl hz
            exact le_trans (ih _ h1' h2') (Nat.le_succ _)
  | case4 a as b bs hab ih1 ih2 =>
      intro zs h1 h2
      simp only [lcs, if_neg hab, le_max_iff]
      cases zs with
      | nil => left; simp
      | cons z zs' =>
          by_cases hz : z = a
          · right
            have h2' : List.Sublist (z :: zs') bs := by
              cases h2 with
              | cons _ h => exact h
              | cons₂ _ h => exact absurd hz.symm hab
            exact ih2 _ h1 h2'
          · left
            have h1' : List.Sublist (z :: zs') as := by
              cases h1 with
              | cons _ h => exact h
              | cons₂ _ h => exact absurd rfl hz
            exact ih1 _ h1' h2

theorem lcs_replicate [DecidableEq α] (x : α) (q m : ℕ) :
    lcs (List.replicate q x) (List.replicate m x) = min q m := by
  apply le_antisymm
  · exact le_min
      (by simpa using lcs_le_length_left (List.replicate q x) (List.replicate m x))
      (by simpa using lcs_le_length_right (List.replicate q x) (List.replicate m x))
  · have h := length_le_lcs_of_sublist (List.replicate q x) (List.replicate m x)
      (List.replicate (min q m) x)
      ((List.replicate_sublist_replicate x).2 (min_le_left _ _))
      ((List.replicate_sublist_replicate x).2 (min_le_right _ _))
    simpa using h

theorem lcs_replicate_mixed [DecidableEq α] {x y : α} (hxy : x ≠ y) (q j k : ℕ) :
    lcs (List.replicate q x) (List.replicate j y ++ List.replicate k x) = min q k := by
  apply le_antisymm
  · have h := lcs_le_inter_card (List.replicate q x) (List.replicate j y ++ List.replicate k x)
    have hcount : ((List.replicate j y ++ List.replicate k x : List α) : Multiset α).count x = k := by
      rw [Multiset.coe_count]
      simp [List.count_append, List.count_replicate, Ne.symm hxy]
    rw [Multiset.coe_replicate] at h
    rw [Multiset.replicate_inter, hcount, Multiset.card_replicate] at h
    exact h
  · have h := length_le_lcs_of_sublist (List.replicate q x)
      (List.replicate j y ++ List.replicate k x)
      (List.replicate (min q k) x)
      ((List.replicate_sublist_replicate x).2 (min_le_left _ _))
      (((List.replicate_sublist_replicate x).2 (min_le_right _ _)).trans
        (List.sublist_append_right _ _))
    simpa using h

theorem levRatio_eq_lcs (a b : List Char) (h : a.length + b.length ≠ 0) :
    levRatio a b = 2 * lcs a b / ((a.length : ℚ) + b.length) := by
  have key := indelDist_add_two_lcs a b
  have keyQ : (indelDist a b : ℚ) + 2 * lcs a b = (a.length : ℚ) + b.length := by
    exact_mod_cast congrArg (fun n : ℕ => (n : ℚ)) key
  rw [levRatio, if_neg h]
  rw [show (a.length : ℚ) + b.length - indelDist a b = 2 * lcs a b by linarith]

theorem levRatioRep_eq (q m : ℕ) :
    levRatioRep q m = if q + m = 0 then 1 else 2 * (min q m : ℚ) / ((q : ℚ) + m) := by
  by_cases h : q + m = 0
  · rw [levRatioRep, levRatio, if_pos (by simpa using h), if_pos h]
  · rw [levRatioRep, levRatio_eq_lcs _ _ (by simpa using h), if_neg h, lcs_replicate]
    simp only [List.length_replicate]
    push_cast
    ring_nf

/-- Any two strings score at most the same-length all-equal probe pair. -/
theorem levRatio_le_rep (a b : List Char) :
    levRatio a b ≤ levRatioRep a.length b.length := by
  by_cases h : a.length + b.length = 0
  · rw [levRatio, if_pos h, levRatioRep_eq, if_pos h]
  · rw [levRatio_eq_lcs a b h, levRatioRep_eq, if_neg h]
    have hden : (0 : ℚ) < (a.length : ℚ) + b.length := by
      have : 0 < a.length + b.length := Nat.pos_of_ne_zero h
      exact_mod_cast this
    refine (div_le_div_iff_of_pos_right hden).2 ?_
    have hlcs : lcs a b ≤ min a.length b.length :=
      le_min (lcs_le_length_left a b) (lcs_le_length_right a b)
    have : (lcs a b : ℚ) ≤ (min a.length b.length : ℚ) := by exact_mod_cast hlcs
    linarith

theorem levOverlapProbe_eq (q c k : ℕ) (hk : k ≤ c) :
    levOverlapProbe q c k = if q + c = 0 then 1 else 2 * (min q k : ℚ) / ((q : ℚ) + c) := by
  have hlen : (List.replicate (c - k) 'b' ++ List.replicate k 'a').length = c := by
    simp only [List.length_append, List.length_replicate]
    omega
  by_cases h : q + c = 0
  · rw [levOverlapProbe, levRatio, if_pos (by simp only [List.length_replicate, hlen]; omega),
      if_pos h]
  · rw [levOverlapProbe, levRatio_eq_lcs _ _ (by simp only [List.length_replicate, hlen]; omega),
      lcs_replicate_mixed (by decide), if_neg h, List.length_replicate, hlen]
    push_cast
    ring

/-- `levRatioRep q` is monotone below the query size. -/
theorem levRatioRep_mono (q : ℕ) {m m' : ℕ} (hmm : m ≤ m') (hm'q : m' ≤ q) :
    levRatioRep q m ≤ levRatioRep q m' := by
  rw [levRatioRep_eq, levRatioRep_eq]
  by_cases h : q + m = 0
  · have hm' : m' = 0 := by omega
    rw [if_pos h, if_pos (by omega)]
  · rw [if_neg h, if_neg (by omega)]
    rw [min_eq_right (show (m : ℚ) ≤ q by exact_mod_cast le_trans hmm hm'q),
      min_eq_right (show (m' : ℚ) ≤ q by exact_mod_cast hm'q)]
    rw [div_le_div_iff (by exact_mod_cast Nat.pos_of_ne_zero h) (by
      have hpos : 0 < q + m' := by omega
      exact_mod_cast hpos)]
    have h1 : (m : ℚ) ≤ m' := by exact_mod_cast hmm
    have h2 : (m' : ℚ) ≤ q := by exact_mod_cast hm'q
    have h3 : (0 : ℚ) ≤ m := by positivity
    nlinarith

/-- `levRatioRep q` is antitone above the query size. -/
theorem levRatioRep_anti (q : ℕ) {m m' : ℕ} (hqm : q ≤ m) (hmm : m ≤ m') :
    levRatioRep q m' ≤ levRatioRep q m := by
  rw [levRatioRep_eq, levRatioRep_eq]
  by_cases h : q + m = 0
  · rw [if_pos h]
    by_cases h' : q + m' = 0
    · rw [if_pos h']
    · rw [if_neg h']
      have hq : q = 0 := by omega
      rw [hq]
      simp only [Nat.cast_zero, zero_add, min_eq_left (Nat.zero_le m'), mul_zero, zero_div]
      norm_num
  · rw [if_neg h, if_neg (by omega)]
    rw [min_eq_left (show (q : ℚ) ≤ m by exact_mod_cast hqm),
      min_eq_left (show (q : ℚ) ≤ m' by exact_mod_cast le_trans hqm hmm)]
    rw [div_le_div_iff (by
        have hpos : 0 < q + m' := by omega
        exact_mod_cast hpos)
      (by exact_mod_cast Nat.pos_of_ne_zero h)]
    have h1 : (m : ℚ) ≤ m' := by exact_mod_cast hmm
    have h3 : (0 : ℚ) ≤ q := by positivity
    nlinarith

theorem levLowerAux_spec (q : ℕ) (s : ℚ) :
    ∀ m : ℕ, levLowerAux q s m = -1 ∨
      ∃ r : ℕ, levLowerAux q s m = (r : ℤ) ∧ r ≤ m ∧ levRatioRep q r < s := by
  intro m
  induction m with
  | zero =>
      rw [levLowerAux]
      split_ifs with h
      · exact Or.inl rfl
      · exact Or.inr ⟨0, rfl, le_refl 0, not_le.1 h⟩
  | succ m ih =>
      rw [levLowerAux]
      split_ifs with h
      · rcases ih with h' | ⟨r, hr, hrm, hrs⟩
        · exact Or.inl h'
        · exact Or.inr ⟨r, hr, le_trans hrm (Nat.le_succ m), hrs⟩
      · exact Or.inr ⟨m + 1, rfl, le_refl _, not_le.1 h⟩

theorem levUpperAux_ge (q : ℕ) (s : ℚ) :
    ∀ f u : ℕ, u ≤ levUpperAux q s f u := by
  intro f
  induction f with
  | zero => intro u; rw [levUpperAux]
  | succ f ih =>
      intro u
      rw [levUpperAux]
      split_ifs with h
      · exact le_trans (Nat.le_succ u) (ih (u + 1))
      · exact le_refl u

theorem levUpperAux_exit (q : ℕ) (s : ℚ) :
    ∀ f u : ℕ, levRatioRep q (u + f) < s →
      levRatioRep q (levUpperAux q s f u) < s := by
  intro f
  induction f with
  | zero => intro u h; rw [levUpperAux]; simpa using h
  | succ f ih =>
      intro u h
      rw [levUpperAux]
      split_ifs with hc
      · exact ih (u + 1) (by rw [show u + 1 + f = u + (f + 1) by omega]; exact h)
      · exact not_le.1 hc

theorem levUpperFuel_spec (q : ℕ) {s : ℚ} (hs : 0 < s) :
    levRatioRep q (q + levUpperFuel q s) < s := by
  have h2 : 2 ≤ levUpperFuel q s := by unfold levUpperFuel; omega
  rw [levRatioRep_eq, if_neg (by omega)]
  rw [min_eq_left (show (q : ℚ) ≤ ((q + levUpperFuel q s : ℕ) : ℚ) by
    exact_mod_cast Nat.le_add_right q _)]
  have hceil : (2 * q : ℚ) / s ≤ (⌈(2 * q : ℚ) / s⌉₊ : ℚ) := Nat.le_ceil _
  have hsF := (div_le_iff₀ hs).1 hceil
  have hF : ((levUpperFuel q s : ℕ) : ℚ) = (⌈(2 * q : ℚ) / s⌉₊ : ℚ) + 2 := by
    rw [levUpperFuel]; push_cast; ring
  have hden : (0 : ℚ) < (q : ℚ) + ((q + levUpperFuel q s : ℕ) : ℚ) := by
    have hpos : 0 < q + (q + levUpperFuel q s) := by omega
    exact_mod_cast hpos
  rw [div_lt_iff₀ hden]
  push_cast at hF ⊢
  nlinarith [hsF, hs, Nat.cast_nonneg (α := ℚ) q,
    Nat.cast_nonneg (α := ℚ) ⌈(2 * q : ℚ) / s⌉₊]

theorem levUpperFinal_spec (q : ℕ) {s : ℚ} (hs : 0 < s) :
    q ≤ levUpperFinal q s ∧ levRatioRep q (levUpperFinal q s) < s :=
  ⟨levUpperAux_ge q s _ q, levUpperAux_exit q s _ q (levUpperFuel_spec q hs)⟩

theorem levFloorAux_spec (q : ℕ) (s : ℚ) (c : ℕ) :
    ∀ m : ℕ, levFloorAux q s c m = -1 ∨
      ∃ r : ℕ, levFloorAux q s c m = (r : ℤ) ∧ r ≤ m ∧ levOverlapProbe q c r < s := by
  intro m
  induction m with
  | zero =>
      rw [levFloorAux]
      split_ifs with h
      · exact Or.inl rfl
      · exact Or.inr ⟨0, rfl, le_refl 0, not_le.1 h⟩
  | succ m ih =>
      rw [levFloorAux]
      split_ifs with h
      · rcases ih with h' | ⟨r, hr, hrm, hrs⟩
        · exact Or.inl h'
        · exact Or.inr ⟨r, hr, le_trans hrm (Nat.le_succ m), hrs⟩
      · exact Or.inr ⟨m + 1, rfl, le_refl _, not_le.1 h⟩

/-- Soundness of the Levenshtein lower length bound: a candidate shorter than
the derived lower bound scores strictly below `min_score`. -/
theorem levSize_sound_low (query cand : List Char) {s : ℚ} (hs : 0 < s)
    (hlow : cand.length < (levSizeBounds query.length s).1) :
    levRatio query cand < s := by
  rw [levSizeBounds, if_neg (ne_of_gt hs)] at hlow
  simp only at hlow
  rcases levLowerAux_spec query.length s query.length with h | ⟨r, hr, hrq, hrs⟩
  · rw [levLowerFinal, h] at hlow
    simp at hlow
  · rw [levLowerFinal, hr] at hlow
    have hcr : cand.length ≤ r := by
      have : ((r : ℤ) + 1).toNat = r + 1 := by omega
      omega
    calc levRatio query cand ≤ levRatioRep query.length cand.length :=
        levRatio_le_rep query cand
      _ ≤ levRatioRep query.length r := levRatioRep_mono query.length hcr hrq
      _ < s := hrs

/-- Soundness of the Levenshtein upper length bound. -/
theorem levSize_sound_high (query cand : List Char) {s : ℚ} (hs : 0 < s)
    (hhigh : ¬ belowUpper cand.length (levSizeBounds query.length s).2) :
    levRatio query cand < s := by
  rw [levSizeBounds, if_neg (ne_of_gt hs)] at hhigh
  simp only [belowUpper] at hhigh
  have hub : levUpperFinal query.length s ≤ cand.length := not_lt.1 hhigh
  obtain ⟨hq, hlt⟩ := levUpperFinal_spec query.length hs
  calc levRatio query cand ≤ levRatioRep query.length cand.length :=
      levRatio_le_rep query cand
    _ ≤ levRatioRep query.length (levUpperFinal query.length s) :=
      levRatioRep_anti query.length hq hub
    _ < s := hlt

/-- Soundness of the per-candidate-size overlap floor: an in-range candidate
whose character-multiset overlap with the query is below the floor scores
strictly below `min_score`. -/
theorem levOverlap_sound (query cand : List Char) {s : ℚ} (hs : 0 < s)
    (hov : charOverlap query cand < levOverlapFloor query.length s cand.length) :
    levRatio query cand < s := by
  rw [levOverlapFloor, if_neg (ne_of_gt hs)] at hov
  rcases levFloorAux_spec query.length s cand.length cand.length with h | ⟨r, hr, hrc, hrs⟩
  · rw [h] at hov
    simp at hov
  · rw [hr] at hov
    have hovr : charOverlap query cand ≤ r := by omega
    rw [levOverlapProbe_eq _ _ _ hrc] at hrs
    by_cases h0 : query.length + cand.length = 0
    · rw [if_pos h0] at hrs
      rw [levRatio, if_pos h0]
      exact hrs
    · rw [if_neg h0] at hrs
      rw [levRatio_eq_lcs query cand h0]
      refine lt_of_le_of_lt ?_ hrs
      have hden : (0 : ℚ) < (query.length : ℚ) + cand.length := by
        have : 0 < query.length + cand.length := Nat.pos_of_ne_zero h0
        exact_mod_cast this
      refine (div_le_div_iff_of_pos_right hden).2 ?_
      have hlcs : lcs query cand ≤ min query.length r :=
        le_min (lcs_le_length_left query cand)
          (le_trans (lcs_le_charOverlap query cand) hovr)
      have : (lcs query cand : ℚ) ≤ (min query.length r : ℚ) := by exact_mod_cast hlcs
      linarith

theorem range_inter_range (m n : ℕ) :
    Finset.range m ∩ Finset.range n = Finset.range (min m n) := by
  ext x
  simp [Nat.lt_min]

theorem tgProbe_eq (q m : ℕ) :
    tgProbe q m = if q + m = 0 then 1
      else ((min q m : ℕ) : ℚ) / ((max q m : ℕ) : ℚ) := by
  rw [tgProbe, trigramSimilarityNaive, range_inter_range]
  simp only [Finset.card_range]
  by_cases h : q + m = 0
  · rw [if_pos (by omega), if_pos h]
  · rw [if_neg (by omega), if_neg h]
    have hden : (q : ℚ) + m - ((min q m : ℕ) : ℚ) = ((max q m : ℕ) : ℚ) := by
      rcases le_total q m with hle | hle
      · rw [min_eq_left hle, max_eq_right hle]; ring
      · rw [min_eq_right hle, max_eq_left hle]; ring
    rw [hden]

/-- Any two trigram sets score at most the size-only probe value. -/
theorem trigramSimilarityNaive_le_probe (a b : Finset ℕ) :
    trigramSimilarityNaive a b ≤ tgProbe a.card b.card := by
  rw [tgProbe_eq]
  by_cases h : a.card + b.card = 0
  · rw [if_pos h, trigramSimilarityNaive, if_pos (by omega)]
  · rw [if_neg h, trigramSimilarityNaive, if_neg (by omega)]
    set o := (a ∩ b).card with ho
    have ho1 : o ≤ a.card := Finset.card_le_card Finset.inter_subset_left
    have ho2 : o ≤ b.card := Finset.card_le_card Finset.inter_subset_right
    have homin : o ≤ min a.card b.card := le_min ho1 ho2
    have hmm : min a.card b.card + max a.card b.card = a.card + b.card :=
      min_add_max a.card b.card
    have hden1 : (0 : ℚ) < (a.card : ℚ) + b.card - o := by
      have hmax : (1 : ℕ) ≤ max a.card b.card := by omega
      have : (o : ℚ) ≤ min a.card b.card := by exact_mod_cast homin
      have hsum : ((min a.card b.card : ℕ) : ℚ) + ((max a.card b.card : ℕ) : ℚ)
          = (a.card : ℚ) + b.card := by exact_mod_cast hmm
      have : ((max a.card b.card : ℕ) : ℚ) ≥ 1 := by exact_mod_cast hmax
      linarith
    have hden2 : (0 : ℚ) < ((max a.card b.card : ℕ) : ℚ) := by
      have hmax : (1 : ℕ) ≤ max a.card b.card := by omega
      exact_mod_cast hmax
    rw [div_le_div_iff hden1 hden2]
    have h1 : (o : ℚ) ≤ ((min a.card b.card : ℕ) : ℚ) := by exact_mod_cast homin
    have h2 : ((min a.card b.card : ℕ) : ℚ) ≤ ((max a.card b.card : ℕ) : ℚ) := by
      exact_mod_cast @min_le_max ℕ _ a.card b.card
    have hsum : ((min a.card b.card : ℕ) : ℚ) + ((max a.card b.card : ℕ) : ℚ)
        = (a.card : ℚ) + b.card := by exact_mod_cast hmm
    have h0 : (0 : ℚ) ≤ o := by positivity
    nlinarith

/-- `tgProbe q` is monotone below the query size. -/
theorem tgProbe_mono (q : ℕ) {m m' : ℕ} (hmm : m ≤ m') (hm'q : m' ≤ q) :
    tgProbe q m ≤ tgProbe q m' := by
  rw [tgProbe_eq, tgProbe_eq]
  by_cases h : q + m = 0
  · rw [if_pos h, if_pos (by omega)]
  · rw [if_neg h, if_neg (by omega)]
    have hq : 0 < q := by omega
    rw [min_eq_right (le_trans hmm hm'q), min_eq_right hm'q,
      max_eq_left (le_trans hmm hm'q), max_eq_left hm'q]
    have h1 : (m : ℚ) ≤ m' := by exact_mod_cast hmm
    have h2 : (0 : ℚ) < q := by exact_mod_cast hq
    gcongr

/-- `tgProbe q` is antitone above the query size. -/
theorem tgProbe_anti (q : ℕ) {m m' : ℕ} (hqm : q ≤ m) (hmm : m ≤ m') :
    tgProbe q m' ≤ tgProbe q m := by
  rw [tgProbe_eq, tgProbe_eq]
  by_cases h : q + m = 0
  · rw [if_pos h]
    by_cases h' : q + m' = 0
    · rw [if_pos h']
    · rw [if_neg h']
      have hq : q = 0 := by omega
      rw [hq, min_eq_left (Nat.zero_le m')]
      simp only [Nat.cast_zero, zero_div]
      norm_num
  · rw [if_neg h, if_neg (by omega)]
    rw [min_eq_left hqm, min_eq_left (le_trans hqm hmm),
      max_eq_right hqm, max_eq_right (le_trans hqm hmm)]
    have hm : 0 < m := by omega
    have h1 : (0 : ℚ) ≤ q := by positivity
    have h2 : (0 : ℚ) < m := by exact_mod_cast hm
    have h3 : (m : ℚ) ≤ m' := by exact_mod_cast hmm
    gcongr

theorem tgLowerAux_spec (q : ℕ) (s : ℚ) :
    ∀ m : ℕ, tgLowerAux q s m = -1 ∨
      ∃ r : ℕ, tgLowerAux q s m = (r : ℤ) ∧ r ≤ m ∧ tgProbe q r < s := by
  intro m
  induction m with
  | zero =>
      rw [tgLowerAux]
      split_ifs with h
      · exact Or.inl rfl
      · exact Or.inr ⟨0, rfl, le_refl 0, not_le.1 h⟩
  | succ m ih =>
      rw [tgLowerAux]
      split_ifs with h
      · rcases ih with h' | ⟨r, hr, hrm, hrs⟩
        · exact Or.inl h'
        · exact Or.inr ⟨r, hr, le_trans hrm (Nat.le_succ m), hrs⟩
      · exact Or.inr ⟨m + 1, rfl, le_refl _, not_le.1 h⟩

theorem tgUpperAux_ge (q : ℕ) (s : ℚ) :
    ∀ f u : ℕ, u ≤ tgUpperAux q s f u := by
  intro f
  induction f with
  | zero => intro u; rw [tgUpperAux]
  | succ f ih =>
      intro u
      rw [tgUpperAux]
      split_ifs with h
      · exact le_trans (Nat.le_succ u) (ih (u + 1))
      · exact le_refl u

theorem tgUpperAux_exit (q : ℕ) (s : ℚ) :
    ∀ f u : ℕ, tgProbe q (u + f) < s → tgProbe q (tgUpperAux q s f u) < s := by
  intro f
  induction f with
  | zero => intro u h; rw [tgUpperAux]; simpa using h
  | succ f ih =>
      intro u h
      rw [tgUpperAux]
      split_ifs with hc
      · exact ih (u + 1) (by rw [show u + 1 + f = u + (f + 1) by omega]; exact h)
      · exact not_le.1 hc

theorem tgUpperFuel_spec (q : ℕ) {s : ℚ} (hs : 0 < s) :
    tgProbe q (q + tgUpperFuel q s) < s := by
  have h2 : 2 ≤ tgUpperFuel q s := by unfold tgUpperFuel; omega
  rw [tgProbe_eq, if_neg (by omega)]
  rw [min_eq_left (by omega), max_eq_right (by omega)]
  have hceil : (q : ℚ) / s ≤ (⌈(q : ℚ) / s⌉₊ : ℚ) := Nat.le_ceil _
  have hsF := (div_le_iff₀ hs).1 hceil
  have hF : ((tgUpperFuel q s : ℕ) : ℚ) = (⌈(q : ℚ) / s⌉₊ : ℚ) + 2 := by
    rw [tgUpperFuel]; push_cast; ring
  have hden : (0 : ℚ) < ((q + tgUpperFuel q s : ℕ) : ℚ) := by
    have hpos : 0 < q + tgUpperFuel q s := by omega
    exact_mod_cast hpos
  rw [div_lt_iff₀ hden]
  push_cast at hF ⊢
  nlinarith [hsF, hs, Nat.cast_nonneg (α := ℚ) q, Nat.cast_nonneg (α := ℚ) ⌈(q : ℚ) / s⌉₊]

theorem tgUpperFinal_spec (q : ℕ) {s : ℚ} (hs : 0 < s) :
    q ≤ tgUpperFinal q s ∧ tgProbe q (tgUpperFinal q s) < s :=
  ⟨tgUpperAux_ge q s _ q, tgUpperAux_exit q s _ q (tgUpperFuel_spec q hs)⟩

/-- Soundness of the trigram lower size bound. -/
theorem tgSize_sound_low (a b : Finset ℕ) {s : ℚ} (hs : 0 < s)
    (hlow : b.card < (trigramBounds a.card s).1) :
    trigramSimilarityNaive a b < s := by
  rw [trigramBounds, if_neg (ne_of_gt hs)] at hlow
  simp only at hlow
  rcases tgLowerAux_spec a.card s a.card with h | ⟨r, hr, hrq, hrs⟩
  · rw [tgLowerFinal, h] at hlow
    simp at hlow
  · rw [tgLowerFinal, hr] at hlow
    have hcr : b.card ≤ r := by omega
    calc trigramSimilarityNaive a b ≤ tgProbe a.card b.card :=
        trigramSimilarityNaive_le_probe a b
      _ ≤ tgProbe a.card r := tgProbe_mono a.card hcr hrq
      _ < s := hrs

/-- Soundness of the trigram upper size bound. -/
theorem tgSize_sound_high (a b : Finset ℕ) {s : ℚ} (hs : 0 < s)
    (hhigh : ¬ belowUpper b.card (trigramBounds a.card s).2) :
    trigramSimilarityNaive a b < s := by
  rw [trigramBounds, if_neg (ne_of_gt hs)] at hhigh
  simp only [belowUpper] at hhigh
  have hub : tgUpperFinal a.card s ≤ b.card := not_lt.1 hhigh
  obtain ⟨hq, hlt⟩ := tgUpperFinal_spec a.card hs
  calc trigramSimilarityNaive a b ≤ tgProbe a.card b.card :=
      trigramSimilarityNaive_le_probe a b
    _ ≤ tgProbe a.card (tgUpperFinal a.card s) := tgProbe_anti a.card hq hub
    _ < s := hlt

/-- C2: Bounds soundness.  For every query string and every `min_score` in
`(0, 1]`: a candidate whose length (character count for the Levenshtein
bounds, trigram-set size for the trigram bounds) lies outside the derived
`[lower, upper)` range has true similarity score against the query strictly
below `min_score`; and a candidate of in-range length whose character-multiset
overlap with the query is below that length's derived overlap floor has
Levenshtein ratio strictly below `min_score`. -/
theorem claim_C2_bounds_soundness (query cand : List Char) (a b : Finset ℕ) (s : ℚ)
    (hs0 : 0 < s) (hs1 : s ≤ 1) (ha : 1 ≤ a.card) :
    (cand.length < (levSizeBounds query.length s).1 ∨
        ¬ belowUpper cand.length (levSizeBounds query.length s).2 →
      levRatio query cand < s)
  ∧ ((levSizeBounds query.length s).1 ≤ cand.length →
        belowUpper cand.length (levSizeBounds query.length s).2 →
        charOverlap query cand < levOverlapFloor query.length s cand.length →
      levRatio query cand < s)
  ∧ (b.card < (trigramBounds a.card s).1 ∨
        ¬ belowUpper b.card (trigramBounds a.card s).2 →
      trigramSimilarityNaive a b < s) := by
  refine ⟨?_, ?_, ?_⟩
  · rintro (hlow | hhigh)
    · exact levSize_sound_low query cand hs0 hlow
    · exact levSize_sound_high query cand hs0 hhigh
  · intro _ _ hov
    exact levOverlap_sound query cand hs0 hov
  · rintro (hlow | hhigh)
    · exact tgSize_sound_low a b hs0 hlow
    · exact tgSize_sound_high a b hs0 hhigh

/-- Witness for C2 at concrete inputs: query `"ab"`, `min_score = 9/10`;
the length-4 candidate `"uvwx"` is above the derived Levenshtein range
`[2, 3)`, the in-range candidate `"uv"` is below the overlap floor `2`, and a
trigram set of size `9` is above the trigram range `[3, 4)` derived for a
query trigram set of size `3`. -/
theorem claim_C2_bounds_soundness_witness :
    levRatio ['a', 'b'] ['u', 'v', 'w', 'x'] < 9/10 ∧
    levRatio ['a', 'b'] ['u', 'v'] < 9/10 ∧
    trigramSimilarityNaive (Finset.range 3) (Finset.range 9) < 9/10 :=
  ⟨(claim_C2_bounds_soundness ['a', 'b'] ['u', 'v', 'w', 'x'] (Finset.range 3)
        (Finset.range 9) (9/10) (by norm_num) (by norm_num) (by decide)).1
      (Or.inr (by
        norm_num [levSizeBounds, levLowerFinal, levLowerAux, levUpperFinal, levUpperAux,
          levUpperFuel, levRatioRep_eq, belowUpper, Nat.ceil_eq_iff])),
   (claim_C2_bounds_soundness ['a', 'b'] ['u', 'v'] (Finset.range 3)
        (Finset.range 9) (9/10) (by norm_num) (by norm_num) (by decide)).2.1
      (by
        norm_num [levSizeBounds, levLowerFinal, levLowerAux, levRatioRep_eq, Nat.ceil_eq_iff])
      (by
        norm_num [levSizeBounds, levLowerFinal, levLowerAux, levUpperFinal, levUpperAux,
          levUpperFuel, levRatioRep_eq, belowUpper, Nat.ceil_eq_iff])
      (by
        have hov : charOverlap ['a', 'b'] ['u', 'v'] = 0 := by decide
        rw [hov]
        norm_num [levOverlapFloor, levFloorAux, levOverlapProbe_eq, Nat.ceil_eq_iff]),
   (claim_C2_bounds_soundness ['a', 'b'] ['u', 'v'] (Finset.range 3)
        (Finset.range 9) (9/10) (by norm_num) (by norm_num) (by decide)).2.2
      (Or.inr (by
        norm_num [trigramBounds, tgLowerFinal, tgLowerAux, tgUpperFinal, tgUpperAux,
          tgUpperFuel, tgProbe_eq, belowUpper, Nat.ceil_eq_iff]))⟩

theorem maxScore_append (query : List Char) (s : ℚ) (P : List (List Char × ℕ × ℕ))
    (e : List Char × ℕ × ℕ) :
    maxScore query s (P ++ [e]) = max (maxScore query s P) (levRatio query e.1) := by
  rw [maxScore, maxScore, List.foldl_append]
  rfl

theorem le_maxScore_self (query : List Char) :
    ∀ (P : List (List Char × ℕ × ℕ)) (a : ℚ), a ≤ maxScore query a P := by
  intro P
  induction P with
  | nil => intro a; exact le_refl a
  | cons x P ih =>
      intro a
      rw [maxScore, List.foldl_cons]
      exact le_trans (le_max_left a (levRatio query x.1)) (ih _)

theorem ratio_le_maxScore (query : List Char) :
    ∀ (P : List (List Char × ℕ × ℕ)) (a : ℚ) (e : List Char × ℕ × ℕ),
      e ∈ P → levRatio query e.1 ≤ maxScore query a P := by
  intro P
  induction P with
  | nil => intro a e he; cases he
  | cons x P ih =>
      intro a e he
      rw [maxScore, List.foldl_cons]
      rcases List.mem_cons.1 he with rfl | he'
      · exact le_trans (le_max_right a (levRatio query e.1)) (le_maxScore_self query P _)
      · exact ih _ e he'

theorem maxScore_eq_start_or_mem (query : List Char) :
    ∀ (P : List (List Char × ℕ × ℕ)) (a : ℚ),
      maxScore query a P = a ∨ ∃ e ∈ P, maxScore query a P = levRatio query e.1 := by
  intro P
  induction P with
  | nil => intro a; exact Or.inl rfl
  | cons x P ih =>
      intro a
      rw [maxScore, List.foldl_cons]
      rcases ih (max a (levRatio query x.1)) with h | ⟨e, he, hev⟩
      · rcases max_choice a (levRatio query x.1) with hm | hm
        · exact Or.inl (by rw [maxScore] at h; rw [h, hm])
        · exact Or.inr ⟨x, List.mem_cons_self x P, by rw [maxScore] at h; rw [h, hm]⟩
      · exact Or.inr ⟨e, List.mem_cons_of_mem x he, hev⟩

theorem scanInv_nil (query : List Char) (s : ℚ) : ScanInv query s [] ([], s) :=
  ⟨rfl, rfl⟩

theorem scanStep_inv {query : List Char} {s : ℚ} (hs : 0 ≤ s)
    {P : List (List Char × ℕ × ℕ)} {st : List (ℕ × ℕ) × ℚ}
    {e : List Char × ℕ × ℕ} {size : ℕ} (hlen : e.1.length = size)
    (hst : ScanInv query s P st) :
    ScanInv query s (P ++ [e])
      (scanStep query (levOverlapFloor query.length s size) st e) := by
  obtain ⟨hA, hB⟩ := hst
  rw [scanStep]
  have hsle : s ≤ st.2 := hA ▸ le_maxScore_self query P s
  by_cases hfloor : levOverlapFloor query.length s size ≤ charOverlap query e.1
  · rw [if_pos hfloor]
    by_cases hge : st.2 ≤ levRatio query e.1
    · rw [if_pos hge]
      by_cases heq : levRatio query e.1 = st.2
      · rw [if_pos heq]
        constructor
        · simp only
          rw [hA, maxScore_append]
          rw [hA] at heq
          rw [heq, max_self]
        · simp only
          rw [List.filter_append, List.map_append, hB]
          congr 1
          simp [heq]
      · rw [if_neg heq]
        have hlt : st.2 < levRatio query e.1 := lt_of_le_of_ne hge (Ne.symm heq)
        constructor
        · simp only
          rw [maxScore_append, ← hA, max_eq_right (le_of_lt hlt)]
        · simp only
          rw [List.filter_append]
          have hPnil : P.filter (fun x => levRatio query x.1 = levRatio query e.1) = [] := by
            rw [List.filter_eq_nil_iff]
            intro x hx
            have : levRatio query x.1 ≤ st.2 := hA ▸ ratio_le_maxScore query P s x hx
            simp only [decide_eq_true_eq]
            exact fun hc => absurd (hc ▸ this) (not_le.2 hlt)
          rw [hPnil]
          simp
    · rw [if_neg hge]
      have hlt : levRatio query e.1 < st.2 := not_le.1 hge
      constructor
      · rw [hA, maxScore_append, ← hA]
        exact (max_eq_left (le_of_lt hlt)).symm
      · rw [List.filter_append, hB]
        have hnil : [e].filter (fun x => levRatio query x.1 = st.2) = [] := by
          have hne : levRatio query e.1 ≠ st.2 := ne_of_lt hlt
          simp [List.filter, hne]
        rw [hnil, List.append_nil]
  · rw [if_neg hfloor]
    have hrlt : levRatio query e.1 < s := by
      rcases lt_or_eq_of_le hs with hpos | hzero
      · refine levOverlap_sound query e.1 hpos ?_
        rw [hlen]
        exact not_le.1 hfloor
      · exfalso
        apply hfloor
        rw [levOverlapFloor, if_pos hzero.symm]
        exact Nat.zero_le _
    constructor
    · rw [hA, maxScore_append, max_eq_left]
      exact le_of_lt (lt_of_lt_of_le hrlt (hA ▸ hsle))
    · rw [List.filter_append, hB]
      have hnil : [e].filter (fun x => levRatio query x.1 = st.2) = [] := by
        have hne : levRatio query e.1 ≠ st.2 := ne_of_lt (lt_of_lt_of_le hrlt hsle)
        simp [List.filter, hne]
      rw [hnil, List.append_nil]

theorem scanBucket_inv {query : List Char} {s : ℚ} (hs : 0 ≤ s) {size : ℕ} :
    ∀ (entries : List (List Char × ℕ × ℕ)) (P : List (List Char × ℕ × ℕ))
      (st : List (ℕ × ℕ) × ℚ), ScanInv query s P st →
      (∀ e ∈ entries, e.1.length = size) →
      ScanInv query s (P ++ entries)
        (scanBucket query (levOverlapFloor query.length s size) entries st) := by
  intro entries
  induction entries with
  | nil =>
      intro P st hst _
      simpa [scanBucket] using hst
  | cons e es ih =>
      intro P st hst hlens
      rw [scanBucket, List.foldl_cons]
      have hstep := scanStep_inv hs (hlens e (List.mem_cons_self e es)) hst
      have hres := ih (P ++ [e]) _ hstep
        (fun x hx => hlens x (List.mem_cons_of_mem e hx))
      rw [scanBucket] at hres
      rw [show P ++ e :: es = (P ++ [e]) ++ es by simp]
      exact hres

theorem lookupBucket_mem {cands : List (ℕ × LevBucket)} {size : ℕ} {b : LevBucket}
    (h : lookupBucket cands size = some b) : (size, b) ∈ cands := by
  rw [lookupBucket] at h
  obtain ⟨kv, hkv, hrest⟩ := Option.map_eq_some'.1 h
  have hmem := List.mem_of_find?_eq_some hkv
  have hpred := List.find?_some hkv
  simp only [decide_eq_true_eq] at hpred
  have : kv = (size, b) := by
    cases kv
    simp only [Prod.mk.injEq]
    exact ⟨hpred, hrest⟩
  exact this ▸ hmem

theorem lookupBucket_eq_some {cands : List (ℕ × LevBucket)}
    (hkeys : (cands.map Prod.fst).Nodup) {size : ℕ} {b : LevBucket}
    (hmem : (size, b) ∈ cands) : lookupBucket cands size = some b := by
  induction cands with
  | nil => cases hmem
  | cons kv rest ih =>
      rw [List.map_cons, List.nodup_cons] at hkeys
      rcases List.mem_cons.1 hmem with rfl | hmem'
      · rw [lookupBucket, List.find?_cons_of_pos _ (by simp)]
        rfl
      · have hne : kv.1 ≠ size := by
          intro heq
          apply hkeys.1
          rw [heq]
          exact List.mem_map.2 ⟨(size, b), hmem', rfl⟩
        rw [lookupBucket, List.find?_cons_of_neg _ (by simpa using hne)]
        exact ih hkeys.2 hmem'

theorem mem_maxKeySucc {cands : List (ℕ × LevBucket)} {kv : ℕ × LevBucket}
    (h : kv ∈ cands) : kv.1 < maxKeySucc cands := by
  induction cands with
  | nil => cases h
  | cons x rest ih =>
      rw [maxKeySucc, List.foldr_cons]
      rcases List.mem_cons.1 h with rfl | h'
      · omega
      · have := ih h'
        rw [maxKeySucc] at this
        omega

theorem mem_scannedEntries {cands : List (ℕ × LevBucket)} {szs : List ℕ}
    {e : List Char × ℕ × ℕ} :
    e ∈ scannedEntries cands szs ↔
      ∃ size ∈ szs, ∃ b, lookupBucket cands size = some b ∧ e ∈ bucketEntries b := by
  rw [scannedEntries, List.mem_flatten]
  constructor
  · rintro ⟨l, hl, hel⟩
    obtain ⟨size, hsize, rfl⟩ := List.mem_map.1 hl
    cases hlook : lookupBucket cands size with
    | none => rw [hlook] at hel; cases hel
    | some b =>
        rw [hlook] at hel
        exact ⟨size, hsize, b, hlook, hel⟩
  · rintro ⟨size, hsize, b, hlook, hel⟩
    refine ⟨bucketEntries b, ?_, hel⟩
    refine List.mem_map.2 ⟨size, hsize, ?_⟩
    rw [hlook]

theorem mem_allEntries {cands : List (ℕ × LevBucket)} {e : List Char × ℕ × ℕ} :
    e ∈ allEntries cands ↔ ∃ kv ∈ cands, e ∈ bucketEntries kv.2 := by
  rw [allEntries, List.mem_flatten]
  constructor
  · rintro ⟨l, hl, hel⟩
    obtain ⟨kv, hkv, rfl⟩ := List.mem_map.1 hl
    exact ⟨kv, hkv, hel⟩
  · rintro ⟨kv, hkv, hel⟩
    exact ⟨bucketEntries kv.2, List.mem_map.2 ⟨kv, hkv, rfl⟩, hel⟩

theorem scanned_subset_allEntries {cands : List (ℕ × LevBucket)} {szs : List ℕ}
    {e : List Char × ℕ × ℕ} (h : e ∈ scannedEntries cands szs) :
    e ∈ allEntries cands := by
  obtain ⟨size, _, b, hlook, hel⟩ := mem_scannedEntries.1 h
  exact mem_allEntries.2 ⟨(size, b), lookupBucket_mem hlook, hel⟩

theorem scanSizes_inv {query : List Char} {s : ℚ} (hs : 0 ≤ s)
    {cands : List (ℕ × LevBucket)}
    (hwf : ∀ kv ∈ cands, ∀ t ∈ kv.2.levenshtein_tokens, t.length = kv.1) :
    ∀ (szs : List ℕ) (P : List (List Char × ℕ × ℕ)) (st : List (ℕ × ℕ) × ℚ),
      ScanInv query s P st →
      ScanInv query s (P ++ scannedEntries cands szs)
        (szs.foldl (scanSize query s cands) st) := by
  intro szs
  induction szs with
  | nil =>
      intro P st hst
      simpa [scannedEntries] using hst
  | cons size rest ih =>
      intro P st hst
      rw [List.foldl_cons]
      have hone : ScanInv query s (P ++ scannedEntries cands [size])
          (scanSize query s cands st size) := by
        rw [scanSize]
        cases hlook : lookupBucket cands size with
        | none => simpa [scannedEntries, hlook] using hst
        | some b =>
            have hkv := lookupBucket_mem hlook
            have hlens : ∀ e ∈ bucketEntries b, e.1.length = size := by
              intro e he
              have := (List.of_mem_zip he).1
              exact hwf (size, b) hkv e.1 this
            have := scanBucket_inv hs (bucketEntries b) P st hst hlens
            simpa [scannedEntries, hlook] using this
      have := ih (P ++ scannedEntries cands [size]) _ hone
      rw [show P ++ scannedEntries cands (size :: rest)
          = (P ++ scannedEntries cands [size]) ++ scannedEntries cands rest by
        simp [scannedEntries]]
      exact this

/-- Every candidate is either scanned by the main loop or provably below
`min_score` (the bucket pruning loses nothing). -/
theorem scanned_or_small {query : List Char} {s : ℚ} {cands : List (ℕ × LevBucket)}
    (hs : 0 ≤ s)
    (hwf : ∀ kv ∈ cands, ∀ t ∈ kv.2.levenshtein_tokens, t.length = kv.1)
    (hkeys : (cands.map Prod.fst).Nodup)
    {e : List Char × ℕ × ℕ} (he : e ∈ allEntries cands) :
    e ∈ scannedEntries cands
      (List.range' (levSizeBounds query.length s).1
        (capUpper (levSizeBounds query.length s).2 (maxKeySucc cands) -
          (levSizeBounds query.length s).1)) ∨
    levRatio query e.1 < s := by
  obtain ⟨kv, hkv, hel⟩ := mem_allEntries.1 he
  have hlen : e.1.length = kv.1 := hwf kv hkv e.1 (List.of_mem_zip hel).1
  have hkmax : kv.1 < maxKeySucc cands := mem_maxKeySucc hkv
  by_cases hin : (levSizeBounds query.length s).1 ≤ kv.1 ∧
      kv.1 < capUpper (levSizeBounds query.length s).2 (maxKeySucc cands)
  · left
    refine mem_scannedEntries.2 ⟨kv.1, ?_, kv.2, ?_, hel⟩
    · exact List.mem_range'_1.2 ⟨hin.1, by omega⟩
    · exact lookupBucket_eq_some hkeys (by exact hkv)
  · right
    push_neg at hin
    rcases Nat.lt_or_ge kv.1 (levSizeBounds query.length s).1 with hlow | hge
    · have hpos : 0 < s := by
        rcases lt_or_eq_of_le hs with hpos | hzero
        · exact hpos
        · exfalso
          rw [levSizeBounds, if_pos hzero.symm] at hlow
          exact Nat.not_lt_zero _ hlow
      exact levSize_sound_low query e.1 hpos (by rw [hlen]; exact hlow)
    · have hup := hin hge
      cases h2 : (levSizeBounds query.length s).2 with
      | none =>
          exfalso
          rw [h2] at hup
          simp only [capUpper] at hup
          omega
      | some v =>
          have hpos : 0 < s := by
            rcases lt_or_eq_of_le hs with hpos | hzero
            · exact hpos
            · exfalso
              rw [levSizeBounds, if_pos hzero.symm] at h2
              cases h2
          refine levSize_sound_high query e.1 hpos ?_
          rw [h2]
          simp only [belowUpper, not_lt, hlen]
          rw [h2] at hup
          simp only [capUpper] at hup
          omega

/-- C3: `find_closest_string_levenshtein` returns a result exactly when some
candidate (in any bucket) has Levenshtein ratio with the query `≥ min_score`;
the returned score is the exact maximum ratio over all candidates, and the
returned list contains exactly the `(canonical_idx, variant_idx)` pairs of all
candidates tied at that maximum, despite the bucket- and overlap-floor
pruning.  The hypotheses state the bucket-map invariants established by the
resource builder: each bucket's key is the length of each of its tokens and
the bucket keys are distinct. -/
theorem claim_C3_find_closest_levenshtein_exact (query : List Char)
    (cands : List (ℕ × LevBucket)) (s : ℚ) (hs : 0 ≤ s)
    (hwf : ∀ kv ∈ cands, ∀ t ∈ kv.2.levenshtein_tokens, t.length = kv.1)
    (hkeys : (cands.map Prod.fst).Nodup) :
    (find_closest_string_levenshtein query cands s = none ↔
      ∀ e ∈ allEntries cands, levRatio query e.1 < s)
  ∧ ∀ best score, find_closest_string_levenshtein query cands s = some (best, score) →
      s ≤ score ∧
      (∃ e ∈ allEntries cands, levRatio query e.1 = score) ∧
      (∀ e ∈ allEntries cands, levRatio query e.1 ≤ score) ∧
      (∀ p : ℕ × ℕ, p ∈ best ↔
        ∃ e ∈ allEntries cands, e.2 = p ∧ levRatio query e.1 = score) := by
  classical
  set szs := List.range' (levSizeBounds query.length s).1
    (capUpper (levSizeBounds query.length s).2 (maxKeySucc cands) -
      (levSizeBounds query.length s).1) with hszs
  set P := scannedEntries cands szs with hPdef
  set final := szs.foldl (scanSize query s cands) ([], s) with hfinal
  have heq : find_closest_string_levenshtein query cands s =
      if final.1 = [] then none else some final := rfl
  have hinv : ScanInv query s P final := by
    have := scanSizes_inv hs hwf szs [] ([], s) (scanInv_nil query s)
    rwa [List.nil_append] at this
  obtain ⟨hA, hB⟩ := hinv
  have hsub : ∀ x ∈ P, x ∈ allEntries cands := fun x hx =>
    scanned_subset_allEntries hx
  have hcover := fun (e : List Char × ℕ × ℕ) (he : e ∈ allEntries cands) =>
    @scanned_or_small query _ _ hs hwf hkeys _ he
  constructor
  · constructor
    · intro hnone e he
      have hempty : final.1 = [] := by
        by_contra hne
        rw [heq, if_neg hne] at hnone
        cases hnone
      rcases hcover e he with hscan | hsmall
      · by_contra hge
        push_neg at hge
        have hfilter : P.filter (fun x => levRatio query x.1 = final.2) = [] := by
          have := hB ▸ hempty
          exact List.map_eq_nil_iff.1 (by rw [← hB]; exact hempty)
        have hnotin : ∀ x ∈ P, levRatio query x.1 ≠ final.2 := by
          intro x hx
          have := List.filter_eq_nil_iff.1 hfilter x hx
          simpa using this
        rcases maxScore_eq_start_or_mem query P s with hmax | ⟨e', he', hmax⟩
        · apply hnotin e hscan
          have h1 : levRatio query e.1 ≤ s := by
            have h2 := ratio_le_maxScore query P s e hscan
            rwa [hmax] at h2
          rw [hA, hmax]
          exact le_antisymm h1 hge
        · exact hnotin e' he' (by rw [hA, hmax])
      · exact hsmall
    · intro hall
      have hfilter : P.filter (fun x => levRatio query x.1 = final.2) = [] := by
        rw [List.filter_eq_nil_iff]
        intro x hx
        simp only [decide_eq_true_eq]
        intro hxeq
        rcases maxScore_eq_start_or_mem query P s with hmax | ⟨e', he', hmax⟩
        · exact absurd (hxeq.trans (hA.trans hmax)) (ne_of_lt (hall x (hsub x hx)))
        · have h1 : levRatio query e'.1 < s := hall e' (hsub e' he')
          have h2 : s ≤ maxScore query s P := le_maxScore_self query P s
          rw [← hmax] at h1
          exact absurd h2 (not_le.2 h1)
      rw [heq, if_pos (by rw [hB, hfilter]; rfl)]
  · intro best score hsome
    have hne : final.1 ≠ [] := by
      intro hnil
      rw [heq, if_pos hnil] at hsome
      cases hsome
    have hfs : final = (best, score) := by
      rw [heq, if_neg hne] at hsome
      exact Option.some.inj hsome
    have hbest : best = final.1 := by rw [hfs]
    have hscore : score = final.2 := by rw [hfs]
    have hsle : s ≤ score := by
      rw [hscore, hA]
      exact le_maxScore_self query P s
    have hattain : ∃ e ∈ allEntries cands, levRatio query e.1 = score := by
      have : P.filter (fun x => levRatio query x.1 = final.2) ≠ [] := by
        intro hnil
        exact hne (by rw [hB, hnil]; rfl)
      obtain ⟨x, hx⟩ := List.exists_mem_of_ne_nil _ this
      have hx' := List.mem_filter.1 hx
      exact ⟨x, hsub x hx'.1, by
        have := hx'.2
        simp only [decide_eq_true_eq] at this
        rw [hscore]
        exact this⟩
    refine ⟨hsle, hattain, ?_, ?_⟩
    · intro e he
      rcases hcover e he with hscan | hsmall
      · rw [hscore, hA]
        exact ratio_le_maxScore query P s e hscan
      · exact le_of_lt (lt_of_lt_of_le hsmall hsle)
    · intro p
      constructor
      · intro hp
        rw [hbest, hB] at hp
        obtain ⟨x, hx, hxp⟩ := List.mem_map.1 hp
        have hx' := List.mem_filter.1 hx
        refine ⟨x, hsub x hx'.1, hxp, ?_⟩
        have := hx'.2
        simp only [decide_eq_true_eq] at this
        rw [hscore]
        exact this
      · rintro ⟨e, he, hep, her⟩
        have hescan : e ∈ P := by
          rcases hcover e he with hscan | hsmall
          · exact hscan
          · exact absurd (her ▸ hsmall) (not_lt.2 hsle)
        rw [hbest, hB]
        refine List.mem_map.2 ⟨e, ?_, hep⟩
        refine List.mem_filter.2 ⟨hescan, ?_⟩
        simp only [decide_eq_true_eq]
        rw [← hscore]
        exact her

set_option maxHeartbeats 2000000 in
/-- Witness for C3 at a concrete input: the query `"xy"` scores below `9/10`
against the single candidate `"hello"`, so the search returns `None`. -/
theorem claim_C3_witness :
    find_closest_string_levenshtein ['x', 'y']
      [(5, ⟨[['h', 'e', 'l', 'l', 'o']], [(0, 0)]⟩)] (9/10) = none :=
  (claim_C3_find_closest_levenshtein_exact ['x', 'y']
      [(5, ⟨[['h', 'e', 'l', 'l', 'o']], [(0, 0)]⟩)] (9/10)
      (by norm_num) (by decide) (by decide)).1.mpr
    (by
      intro e he
      have hd : indelDist ['x', 'y'] ['h', 'e', 'l', 'l', 'o'] = 7 := by
        simp [indelDist]
      simp only [allEntries, bucketEntries, List.map_cons, List.map_nil,
        List.flatten, List.zip, List.zipWith, List.append_nil,
        List.mem_cons, List.not_mem_nil, or_false] at he
      rw [he]
      norm_num [levRatio, hd])

theorem le_foldr_max {a : ℕ} : ∀ {l : List ℕ}, a ∈ l → a ≤ l.foldr max 0 := by
  intro l
  induction l with
  | nil => intro h; cases h
  | cons x xs ih =>
      intro h
      rw [List.foldr_cons]
      rcases List.mem_cons.1 h with rfl | h'
      · exact le_max_left _ _
      · exact le_trans (ih h') (le_max_right _ _)

theorem mem_lt_ncols {trigrams : List (Finset ℕ)} {r : Finset ℕ} (hr : r ∈ trigrams)
    {x : ℕ} (hx : x ∈ r) : x < (optimize_trigram_tokens trigrams).ncols := by
  have h1 : x + 1 ≤ r.sup (fun x => x + 1) := Finset.le_sup hx
  have h2 : r.sup (fun x => x + 1) ≤ (optimize_trigram_tokens trigrams).ncols :=
    le_foldr_max (List.mem_map.2 ⟨r, hr, rfl⟩)
  omega

/-- C6: the vectorized trigram similarity equals the naive reference.  For a
query trigram set and candidate trigram sets all of size `n ≥ 1` (bucket keys
are trigram-set sizes, and `get_trigram_tokens` never produces an empty set),
every entry of `trigram_similarity` is `trigram_similarity_naive` of the
corresponding candidate, i.e. the Jaccard similarity
`|A∩B| / (|A|+|B|-|A∩B|)`. -/
theorem claim_C6_trigram_similarity_eq_naive (query : Finset ℕ)
    (cands : List (Finset ℕ)) (n : ℕ) (hn : 1 ≤ n)
    (hsize : ∀ c ∈ cands, c.card = n) :
    trigram_similarity query n (optimize_trigram_tokens cands) =
      cands.map (fun c => trigramSimilarityNaive query c) := by
  rw [trigram_similarity]
  apply List.map_congr_left
  intro r hr
  have hinter : r ∩ query.filter (fun t => t < (optimize_trigram_tokens cands).ncols)
      = query ∩ r := by
    ext x
    simp only [Finset.mem_inter, Finset.mem_filter]
    constructor
    · rintro ⟨hxr, hxq, _⟩
      exact ⟨hxq, hxr⟩
    · rintro ⟨hxq, hxr⟩
      exact ⟨hxr, hxq, mem_lt_ncols hr hxr⟩
  rw [hinter, trigramSimilarityNaive, if_neg (by
    intro h
    have := hsize r hr
    omega)]
  rw [hsize r hr]

/-- Witness for C6: a concrete query against two candidate trigram sets of
size two. -/
theorem claim_C6_witness :
    trigram_similarity {2, 5, 7} 2 (optimize_trigram_tokens [{0, 2}, {1, 5}]) =
      List.map (fun c => trigramSimilarityNaive {2, 5, 7} c) [{0, 2}, {1, 5}] :=
  claim_C6_trigram_similarity_eq_naive {2, 5, 7} [{0, 2}, {1, 5}] 2
    (by norm_num) (by decide)

theorem overlapB_comm (m1 m2 : ExtractedLocation) : overlapB m1 m2 = overlapB m2 m1 := by
  simp only [overlapB, range_has_overlap, decide_eq_decide]
  omega

theorem zeroOut_fst (m : ExtractedLocation) (p : ExtractedLocation × ℕ) :
    (zeroOut m p).1 = p.1 := by
  rw [zeroOut]
  split_ifs <;> rfl

theorem zeroOut_snd_ne_zero {m : ExtractedLocation} {p : ExtractedLocation × ℕ}
    (h : (zeroOut m p).2 ≠ 0) : overlapB m p.1 = false ∧ (zeroOut m p).2 = p.2 := by
  rw [zeroOut] at h ⊢
  split_ifs at h ⊢ with hov
  · exact absurd rfl h
  · exact ⟨Bool.not_eq_true _ ▸ (by simpa using hov), rfl⟩

theorem zeroOut_snd_eq_two {m : ExtractedLocation} {p : ExtractedLocation × ℕ}
    (h : (zeroOut m p).2 = 2) : p.2 = 2 ∧ overlapB m p.1 = false := by
  have hne : (zeroOut m p).2 ≠ 0 := by omega
  obtain ⟨hov, heq⟩ := zeroOut_snd_ne_zero hne
  exact ⟨heq ▸ h, hov⟩

theorem pairwise_of_all {α : Type _} {R : α → α → Prop} (h : ∀ a b, R a b) :
    ∀ l : List α, l.Pairwise R := by
  intro l
  induction l with
  | nil => exact List.Pairwise.nil
  | cons x xs ih => exact List.Pairwise.cons (fun b _ => h x b) ih

theorem noOverlapInv_init (ms : List ExtractedLocation) :
    NoOverlapInv (ms.map (fun m => (m, 1))) := by
  rw [NoOverlapInv, List.pairwise_map]
  refine pairwise_of_all ?_ ms
  rintro a b (⟨h, _⟩ | ⟨h, _⟩) <;> exact absurd h (by norm_num)

/-- Accepting an uncertain match and dismissing everything overlapping it
preserves the invariant. -/
theorem accept_preserves_inv {done rest : List (ExtractedLocation × ℕ)}
    {m : ExtractedLocation}
    (h : NoOverlapInv (done ++ (m, 1) :: rest)) :
    NoOverlapInv (done.map (zeroOut m) ++ (m, 2) :: rest.map (zeroOut m)) := by
  rw [NoOverlapInv, List.pairwise_append] at h ⊢
  obtain ⟨hD, hMR, hcross⟩ := h
  rw [List.pairwise_cons] at hMR
  obtain ⟨hmR, hR⟩ := hMR
  refine ⟨?_, ?_, ?_⟩
  · rw [List.pairwise_map]
    refine hD.imp ?_
    intro p q hpq hant
    rw [zeroOut_fst, zeroOut_fst]
    rcases hant with ⟨h2, hne⟩ | ⟨h2, hne⟩
    · obtain ⟨hp2, _⟩ := zeroOut_snd_eq_two h2
      obtain ⟨_, hq⟩ := zeroOut_snd_ne_zero hne
      exact hpq (Or.inl ⟨hp2, hq ▸ hne⟩)
    · obtain ⟨hq2, _⟩ := zeroOut_snd_eq_two h2
      obtain ⟨_, hp⟩ := zeroOut_snd_ne_zero hne
      exact hpq (Or.inr ⟨hq2, hp ▸ hne⟩)
  · rw [List.pairwise_cons]
    constructor
    · intro q' hq'
      obtain ⟨q, hq, rfl⟩ := List.mem_map.1 hq'
      intro hant
      rw [zeroOut_fst]
      rcases hant with ⟨_, hne⟩ | ⟨h2, _⟩
      · exact (zeroOut_snd_ne_zero hne).1
      · exact (zeroOut_snd_eq_two h2).2
    · rw [List.pairwise_map]
      refine hR.imp ?_
      intro p q hpq hant
      rw [zeroOut_fst, zeroOut_fst]
      rcases hant with ⟨h2, hne⟩ | ⟨h2, hne⟩
      · obtain ⟨hp2, _⟩ := zeroOut_snd_eq_two h2
        obtain ⟨_, hq⟩ := zeroOut_snd_ne_zero hne
        exact hpq (Or.inl ⟨hp2, hq ▸ hne⟩)
      · obtain ⟨hq2, _⟩ := zeroOut_snd_eq_two h2
        obtain ⟨_, hp⟩ := zeroOut_snd_ne_zero hne
        exact hpq (Or.inr ⟨hq2, hp ▸ hne⟩)
  · intro p' hp' q' hq'
    obtain ⟨p, hp, rfl⟩ := List.mem_map.1 hp'
    rcases List.mem_cons.1 hq' with rfl | hq'
    · intro hant
      rw [zeroOut_fst]
      rcases hant with ⟨h2, _⟩ | ⟨_, hne⟩
      · have := (zeroOut_snd_eq_two h2).2
        rw [overlapB_comm]
        exact this
      · have := (zeroOut_snd_ne_zero hne).1
        rw [overlapB_comm]
        exact this
    · obtain ⟨q, hq, rfl⟩ := List.mem_map.1 hq'
      intro hant
      rw [zeroOut_fst, zeroOut_fst]
      rcases hant with ⟨h2, hne⟩ | ⟨h2, hne⟩
      · obtain ⟨hp2, _⟩ := zeroOut_snd_eq_two h2
        obtain ⟨_, hqe⟩ := zeroOut_snd_ne_zero hne
        exact hcross p hp q (List.mem_cons_of_mem _ hq) (Or.inl ⟨hp2, hqe ▸ hne⟩)
      · obtain ⟨hq2, _⟩ := zeroOut_snd_eq_two h2
        obtain ⟨_, hpe⟩ := zeroOut_snd_ne_zero hne
        exact hcross p hp q (List.mem_cons_of_mem _ hq) (Or.inr ⟨hq2, hpe ▸ hne⟩)

theorem resolveStep_inv :
    ∀ (done todo : List (ExtractedLocation × ℕ)),
      NoOverlapInv (done ++ todo) → NoOverlapInv (resolveStep done todo) := by
  intro done todo
  induction done, todo using resolveStep.induct with
  | case1 done =>
      intro h
      rw [resolveStep]
      simpa using h
  | case2 done m k rest hk ih =>
      intro h
      rw [resolveStep, if_pos hk]
      exact ih (by simpa using h)
  | case3 done m k rest hk hany ih =>
      intro h
      rw [resolveStep, if_neg hk, if_pos hany]
      have hk1 : k = 1 := by omega
      rw [hk1] at h
      exact ih (by simpa using h)
  | case4 done m k rest hk hany ih =>
      intro h
      rw [resolveStep, if_neg hk, if_neg hany]
      have hk1 : k = 1 := by omega
      rw [hk1] at h
      refine ih ?_
      have := @accept_preserves_inv done rest m h
      simpa using this

theorem resolveSweep_inv {l : List (ExtractedLocation × ℕ)} (h : NoOverlapInv l) :
    NoOverlapInv (resolveSweep l) :=
  resolveStep_inv [] l (by simpa using h)

theorem resolveLoop_inv :
    ∀ (f : ℕ) (l : List (ExtractedLocation × ℕ)), NoOverlapInv l →
      NoOverlapInv (resolveLoop f l) := by
  intro f
  induction f with
  | zero => intro l h; rw [resolveLoop]; exact h
  | succ f ih =>
      intro l h
      rw [resolveLoop]
      split_ifs with h1 h2
      · exact h
      · exact ih _ (resolveSweep_inv h)
      · exact h

/-- The matches returned by the overlap resolver have pairwise non-overlapping
substring ranges. -/
theorem resolveOverlaps_pairwise (ms : List ExtractedLocation) :
    (resolveOverlaps ms).Pairwise (fun a b => overlapB a b = false) := by
  have hinv : NoOverlapInv (resolveLoop (2 * ms.length + 2)
      ((sortMatches ms).map (fun m => (m, 1)))) :=
    resolveLoop_inv _ _ (noOverlapInv_init (sortMatches ms))
  rw [resolveOverlaps, List.pairwise_map]
  refine List.Pairwise.imp_of_mem ?_ (hinv.sublist (List.filter_sublist _))
  intro p q hp hq hpq
  have hp2 : p.2 = 2 := by
    have := List.of_mem_filter hp
    simpa using this
  have hq2 : q.2 = 2 := by
    have := List.of_mem_filter hq
    simpa using this
  exact hpq (Or.inl ⟨hp2, by omega⟩)

theorem resolveStep_fst :
    ∀ (done todo : List (ExtractedLocation × ℕ)),
      (resolveStep done todo).map Prod.fst = done.map Prod.fst ++ todo.map Prod.fst := by
  intro done todo
  induction done, todo using resolveStep.induct with
  | case1 done => rw [resolveStep]; simp
  | case2 done m k rest hk ih =>
      rw [resolveStep, if_pos hk, ih]
      simp
  | case3 done m k rest hk hany ih =>
      rw [resolveStep, if_neg hk, if_pos hany, ih]
      simp
  | case4 done m k rest hk hany ih =>
      rw [resolveStep, if_neg hk, if_neg hany, ih]
      have hz : ∀ l : List (ExtractedLocation × ℕ),
          (l.map (zeroOut m)).map Prod.fst = l.map Prod.fst := by
        intro l
        rw [List.map_map]
        exact List.map_congr_left (fun p _ => zeroOut_fst m p)
      simp [hz]

theorem resolveLoop_fst :
    ∀ (f : ℕ) (l : List (ExtractedLocation × ℕ)),
      (resolveLoop f l).map Prod.fst = l.map Prod.fst := by
  intro f
  induction f with
  | zero => intro l; rw [resolveLoop]
  | succ f ih =>
      intro l
      rw [resolveLoop]
      split_ifs with h1 h2
      · rfl
      · rw [ih, resolveSweep, resolveStep_fst]
        simp
      · rfl

/-- The resolver output is a sublist of the sorted match list. -/
theorem resolveOverlaps_sublist (ms : List ExtractedLocation) :
    (resolveOverlaps ms).Sublist (sortMatches ms) := by
  rw [resolveOverlaps]
  have h1 : ((resolveLoop (2 * ms.length + 2)
        ((sortMatches ms).map (fun m => (m, 1)))).filter
      (fun p => p.2 == 2)).Sublist
      (resolveLoop (2 * ms.length + 2) ((sortMatches ms).map (fun m => (m, 1)))) :=
    List.filter_sublist _
  have h2 := h1.map Prod.fst
  rw [resolveLoop_fst, List.map_map] at h2
  have h3 : List.map (Prod.fst ∘ fun m : ExtractedLocation => (m, (1 : ℕ)))
      (sortMatches ms) = sortMatches ms := by
    have hid : (Prod.fst ∘ fun m : ExtractedLocation => (m, (1 : ℕ))) = id := rfl
    rw [hid, List.map_id]
  rw [h3] at h2
  exact h2

/-- A sweep over pairwise non-overlapping uncertain matches accepts all of
them in place. -/
theorem sweep_all_accept :
    ∀ (A : List ExtractedLocation) (done : List (ExtractedLocation × ℕ)),
      A.Pairwise (fun a b => overlapB a b = false) →
      (∀ p ∈ done, ∀ a ∈ A, overlapB a p.1 = false) →
      resolveStep done (A.map (fun m => (m, 1))) =
        done ++ A.map (fun m => (m, 2)) := by
  intro A
  induction A with
  | nil =>
      intro done _ _
      rw [List.map_nil, resolveStep, List.map_nil, List.append_nil]
  | cons m A' ih =>
      intro done hpw hdone
      rw [List.pairwise_cons] at hpw
      obtain ⟨hm, hpw'⟩ := hpw
      rw [List.map_cons, resolveStep, if_neg (by omega)]
      rw [if_neg (by
        rw [List.any_eq_true]
        push_neg
        rintro p hp
        obtain ⟨a, ha, rfl⟩ := List.mem_map.1 hp
        simp only [Bool.and_eq_true, bne_iff_ne, ne_eq]
        rintro ⟨⟨-, hov⟩, -⟩
        exact absurd hov (by rw [hm a ha]; simp))]
      have hdone' : done.map (zeroOut m) = done := by
        have hze : ∀ p ∈ done, zeroOut m p = id p := by
          intro p hp
          rw [zeroOut, if_neg (by rw [hdone p hp m (List.mem_cons_self m A')]; simp)]
          rfl
        rw [List.map_congr_left hze, List.map_id]
      have hrest' : (A'.map (fun m => (m, 1))).map (zeroOut m) =
          A'.map (fun m => (m, 1)) := by
        rw [List.map_map]
        refine List.map_congr_left ?_
        intro a ha
        simp only [Function.comp_apply]
        rw [zeroOut, if_neg (by rw [hm a ha]; simp)]
      rw [hdone', hrest', ih (done ++ [(m, 2)]) hpw' ?_]
      · simp
      · intro p hp a ha
        rcases List.mem_append.1 hp with hp' | hp'
        · exact hdone p hp' a (List.mem_cons_of_mem m ha)
        · have hpm : p = (m, 2) := by simpa using hp'
          rw [hpm, overlapB_comm]
          exact hm a ha

/-- On a list that is already sorted by descending score and pairwise
non-overlapping, the resolver accepts every match and returns the list
unchanged. -/
theorem resolveOverlaps_of_sorted_nonoverlap (A : List ExtractedLocation)
    (hsorted : A.Pairwise
      (fun a b => decide (b.location.score ≤ a.location.score) = true))
    (hnov : A.Pairwise (fun a b => overlapB a b = false)) :
    resolveOverlaps A = A := by
  rw [resolveOverlaps, sortMatches, List.mergeSort_of_sorted hsorted]
  have hfuel : 2 * A.length + 2 = (2 * A.length + 1) + 1 := rfl
  rw [hfuel, resolveLoop]
  cases A with
  | nil => simp
  | cons a A' =>
      rw [if_pos (by simp)]
      have hsweep : resolveSweep ((a :: A').map (fun m => (m, 1))) =
          (a :: A').map (fun m => (m, 2)) := by
        rw [resolveSweep, sweep_all_accept (a :: A') [] hnov (by intro p hp; cases hp)]
        rfl
      rw [hsweep]
      rw [if_neg (by
        intro hcontra
        have := congrArg (fun l => l.head?) hcontra
        simp at this)]
      have hfuel2 : 2 * (a :: A').length + 1 = (2 * (a :: A').length) + 1 := rfl
      rw [hfuel2, resolveLoop]
      rw [if_neg (by
        rw [List.any_eq_true]
        push_neg
        rintro p hp
        obtain ⟨x, _, rfl⟩ := List.mem_map.1 hp
        simp)]
      rw [List.filter_eq_self.2 (by
        rintro p hp
        obtain ⟨x, _, rfl⟩ := List.mem_map.1 hp
        simp)]
      rw [List.map_map]
      have hid : ((fun p : ExtractedLocation × ℕ => p.1) ∘
          fun m : ExtractedLocation => (m, (2 : ℕ))) = id := rfl
      rw [hid, List.map_id]

/-- The resolver output is sorted by descending score. -/
theorem resolveOverlaps_sorted (ms : List ExtractedLocation) :
    (resolveOverlaps ms).Pairwise
      (fun a b => decide (b.location.score ≤ a.location.score) = true) := by
  refine List.Pairwise.sublist (resolveOverlaps_sublist ms) ?_
  refine List.sorted_mergeSort ?_ ?_ ms
  · intro a b c h1 h2
    simp only [decide_eq_true_eq] at *
    exact le_trans h2 h1
  · intro a b
    rcases le_total a.location.score b.location.score with h | h <;>
      simp [h]

/-- C10: overlap-resolution idempotence.  Applying the overlap-resolution
procedure of `_find_in_string` to the set of matches it accepted yields that
same accepted set: running the resolver twice gives the same result as
running it once. -/
theorem claim_C10_resolveOverlaps_idempotent (ms : List ExtractedLocation) :
    resolveOverlaps (resolveOverlaps ms) = resolveOverlaps ms :=
  resolveOverlaps_of_sorted_nonoverlap _ (resolveOverlaps_sorted ms)
    (resolveOverlaps_pairwise ms)

theorem strLt_irrefl : ∀ s : List Char, strLt s s = false := by
  intro s
  induction s with
  | nil => rfl
  | cons a as ih => simp [strLt, ih]

theorem strLt_trans :
    ∀ a b c : List Char, strLt a b = true → strLt b c = true → strLt a c = true := by
  intro a
  induction a with
  | nil =>
      intro b c hab hbc
      cases b with
      | nil => exact hbc
      | cons y bs =>
          cases c with
          | nil => rw [strLt] at hbc; cases hbc
          | cons z cs => rfl
  | cons x as ih =>
      intro b c hab hbc
      cases b with
      | nil => rw [strLt] at hab; cases hab
      | cons y bs =>
          cases c with
          | nil => rw [strLt] at hbc; cases hbc
          | cons z cs =>
              rw [strLt] at hab hbc ⊢
              by_cases h1 : x.toNat < y.toNat
              · rw [if_pos h1] at hab
                by_cases h2 : y.toNat < z.toNat
                · rw [if_pos (by omega : x.toNat < z.toNat)]
                · rw [if_neg h2] at hbc
                  by_cases h3 : z.toNat < y.toNat
                  · rw [if_pos h3] at hbc; cases hbc
                  · rw [if_pos (by omega : x.toNat < z.toNat)]
              · rw [if_neg h1] at hab
                by_cases h4 : y.toNat < x.toNat
                · rw [if_pos h4] at hab; cases hab
                · rw [if_neg h4] at hab
                  by_cases h2 : y.toNat < z.toNat
                  · rw [if_pos (by omega : x.toNat < z.toNat)]
                  · rw [if_neg h2] at hbc
                    by_cases h3 : z.toNat < y.toNat
                    · rw [if_pos h3] at hbc; cases hbc
                    · rw [if_neg h3] at hbc
                      rw [if_neg (by omega : ¬ x.toNat < z.toNat),
                          if_neg (by omega : ¬ z.toNat < x.toNat)]
                      exact ih bs cs hab hbc

theorem strLt_connex :
    ∀ a b : List Char, strLt a b = false → strLt b a = false → a = b := by
  intro a
  induction a with
  | nil =>
      intro b hab _
      cases b with
      | nil => rfl
      | cons y bs => rw [strLt] at hab; cases hab
  | cons x as ih =>
      intro b hab hba
      cases b with
      | nil => rw [strLt] at hba; cases hba
      | cons y bs =>
          rw [strLt] at hab hba
          by_cases h1 : x.toNat < y.toNat
          · rw [if_pos h1] at hab; cases hab
          · by_cases h2 : y.toNat < x.toNat
            · rw [if_pos h2] at hba; cases hba
            · rw [if_neg h1, if_neg h2] at hab
              rw [if_neg h2, if_neg h1] at hba
              have hxy : x = y := by
                apply Char.ext
                unfold Char.toNat at h1 h2
                exact UInt32.toNat.inj (by omega)
              rw [hxy, ih bs hab hba]

theorem pmTupLt_irrefl (x : ℕ × ℕ × List Char) : pmTupLt x x = false := by
  simp [pmTupLt, strLt_irrefl]

theorem pmTupLt_trans : ∀ x y z : ℕ × ℕ × List Char,
    pmTupLt x y = true → pmTupLt y z = true → pmTupLt x z = true := by
  rintro ⟨x1, x2, x3⟩ ⟨y1, y2, y3⟩ ⟨z1, z2, z3⟩ hxy hyz
  simp only [pmTupLt, Bool.or_eq_true, Bool.and_eq_true, decide_eq_true_eq] at hxy hyz ⊢
  rcases hxy with h | ⟨e1, h | ⟨e2, h⟩⟩ <;>
    rcases hyz with h' | ⟨f1, h' | ⟨f2, h'⟩⟩ <;>
      first
        | (left; omega)
        | (right; refine ⟨by omega, ?_⟩
           first
             | (left; omega)
             | (right; exact ⟨by omega, strLt_trans x3 y3 z3 h h'⟩))

theorem pmTupLt_connex : ∀ x y : ℕ × ℕ × List Char,
    pmTupLt x y = false → pmTupLt y x = false → x = y := by
  rintro ⟨x1, x2, x3⟩ ⟨y1, y2, y3⟩ hxy hyx
  by_cases h1 : y1 < x1
  · simp [pmTupLt, h1] at hxy
  by_cases h2 : x1 < y1
  · simp [pmTupLt, h2] at hyx
  have e1 : x1 = y1 := by omega
  subst e1
  by_cases h3 : y2 < x2
  · simp [pmTupLt, h3] at hxy
  by_cases h4 : x2 < y2
  · simp [pmTupLt, h4] at hyx
  have e2 : x2 = y2 := by omega
  subst e2
  simp only [pmTupLt, decide_eq_true_eq, Bool.or_eq_false_iff, Bool.and_eq_false_iff,
    decide_eq_false_iff_not, Nat.lt_irrefl, not_false_iff, true_and,
    eq_self_iff_true, not_true, false_or] at hxy hyx
  rw [strLt_connex x3 y3 hxy hyx]

theorem pmLe_trans : ∀ a b c : (ℕ × ℕ × List Char) × ℕ,
    pmLe a b = true → pmLe b c = true → pmLe a c = true := by
  intro a b c hab hbc
  rw [pmLe, Bool.not_eq_true'] at hab hbc ⊢
  cases hca : pmTupLt c.1 a.1 with
  | false => rfl
  | true =>
      cases hba : pmTupLt a.1 b.1 with
      | true =>
          have := pmTupLt_trans _ _ _ hca hba
          rw [this] at hbc
          cases hbc
      | false =>
          have heq : a.1 = b.1 := pmTupLt_connex _ _ hba hab
          rw [← heq] at hbc
          rw [hca] at hbc
          cases hbc

theorem pmLe_total : ∀ a b : (ℕ × ℕ × List Char) × ℕ,
    (pmLe a b || pmLe b a) = true := by
  intro a b
  rw [pmLe, pmLe, Bool.or_eq_true, Bool.not_eq_true', Bool.not_eq_true']
  cases h : pmTupLt b.1 a.1 with
  | false => exact Or.inl rfl
  | true =>
      cases h' : pmTupLt a.1 b.1 with
      | false => exact Or.inr rfl
      | true =>
          have := pmTupLt_trans _ _ _ h h'
          rw [pmTupLt_irrefl] at this
          cases this

/-- C8 (amended): for every non-empty candidate list, `process_multiple_names`
returns a candidate of the list whose sort key — (a) count of characters that
are not ASCII letters `a`–`z`/`A`–`Z` (so hyphens, digits and accented letters
all count, not only "non-ASCII letters"), then (b) longest canonical name, then
(c) code-point-lexicographically first canonical name — is minimal: no
candidate's key strictly precedes it, and every candidate with a different
canonical name strictly follows it in the total preference order. -/
theorem claim_C8_process_multiple_names (cs : List Location) (h : cs ≠ []) :
    ∃ r, process_multiple_names cs = some r ∧ r ∈ cs ∧
      (∀ c ∈ cs, pmTupLt (pmKeyOf c) (pmKeyOf r) = false) ∧
      (∀ c ∈ cs, c.canonical_name = r.canonical_name ∨
        pmTupLt (pmKeyOf r) (pmKeyOf c) = true) := by
  have hperm := List.mergeSort_perm (cs.enum.map (fun p => (pmKeyOf p.2, p.1))) pmLe
  cases hs : (cs.enum.map (fun p => (pmKeyOf p.2, p.1))).mergeSort pmLe with
  | nil =>
      exfalso
      have hlen := hperm.length_eq
      rw [hs] at hlen
      simp only [List.length_nil, List.length_map, List.enum_length] at hlen
      exact h (List.length_eq_zero.1 hlen.symm)
  | cons k rest =>
      obtain ⟨⟨i, c⟩, hmem, hkey⟩ := List.mem_map.1
        (hperm.subset (by rw [hs]; exact List.mem_cons_self _ _))
      have hget : cs.get? i = some c := List.mem_enum_iff_get?.1 hmem
      have hres : process_multiple_names cs = cs.get? k.2 := by
        rw [process_multiple_names, hs]
      have hmin : ∀ c' ∈ cs, pmTupLt (pmKeyOf c') (pmKeyOf c) = false := by
        intro c' hc'
        obtain ⟨j, hj⟩ := List.mem_iff_get?.1 hc'
        have hmem' : ((pmKeyOf c', j) : (ℕ × ℕ × List Char) × ℕ) ∈
            cs.enum.map (fun p => (pmKeyOf p.2, p.1)) :=
          List.mem_map.2 ⟨(j, c'), List.mem_enum_iff_get?.2 hj, rfl⟩
        have hin : ((pmKeyOf c', j) : (ℕ × ℕ × List Char) × ℕ) ∈
            (cs.enum.map (fun p => (pmKeyOf p.2, p.1))).mergeSort pmLe :=
          hperm.mem_iff.2 hmem'
        rw [hs] at hin
        rcases List.mem_cons.1 hin with heq | hrest
        · have hk1 : pmKeyOf c' = k.1 := congrArg Prod.fst heq
          rw [hk1, ← hkey]
          exact pmTupLt_irrefl _
        · have hsorted := List.sorted_mergeSort pmLe_trans pmLe_total
            (cs.enum.map (fun p => (pmKeyOf p.2, p.1)))
          rw [hs] at hsorted
          have hle := (List.pairwise_cons.1 hsorted).1 _ hrest
          rw [pmLe, Bool.not_eq_true'] at hle
          rw [← hkey] at hle
          exact hle
      refine ⟨c, ?_, List.get?_mem hget, hmin, ?_⟩
      · rw [hres, ← hkey]
        exact hget
      · intro c' hc'
        cases hlt : pmTupLt (pmKeyOf c) (pmKeyOf c') with
        | true => exact Or.inr rfl
        | false =>
            have hkeys : pmKeyOf c' = pmKeyOf c :=
              pmTupLt_connex _ _ (hmin c' hc') hlt
            exact Or.inl (congrArg (fun t => t.2.2) hkeys)

/-- C8 counterexample to criterion (a) as stated ("most non-ASCII letters"):
with candidates `"ab-"` and `"àbc"`, the code returns `"ab-"` although `"àbc"`
has strictly more non-ASCII letters (`à` versus none). The code's first
criterion counts all characters other than `a`–`z`/`A`–`Z`, so the hyphen of
`"ab-"` ties with the `à` of `"àbc"` and the code-point order then prefers
`"ab-"`. -/
theorem claim_C8_counterexample :
    process_multiple_names [locDashAB, locAccAB] = some locDashAB ∧
    nonAsciiCount locAccAB.canonical_name = 1 ∧
    nonAsciiCount locDashAB.canonical_name = 0 := by
  refine ⟨?_, by decide, by decide⟩
  simp +decide [process_multiple_names, List.mergeSort, List.merge, List.enum,
    List.enumFrom, locDashAB, locAccAB]

/-- C8 witness: the amended theorem at the spec's own example
`["Chenet", "Chênet"]`, together with the concrete evaluation showing that the
accented variant `"Chênet"` is returned. -/
theorem claim_C8_witness :
    process_multiple_names [locChenet, locChenetAcc] = some locChenetAcc ∧
    ([locChenet, locChenetAcc] : List Location) ≠ [] ∧
    (∃ r, process_multiple_names [locChenet, locChenetAcc] = some r ∧
      r ∈ [locChenet, locChenetAcc] ∧
      (∀ c ∈ [locChenet, locChenetAcc], pmTupLt (pmKeyOf c) (pmKeyOf r) = false) ∧
      (∀ c ∈ [locChenet, locChenetAcc], c.canonical_name = r.canonical_name ∨
        pmTupLt (pmKeyOf r) (pmKeyOf c) = true)) := by
  refine ⟨?_, List.cons_ne_nil _ _,
    claim_C8_process_multiple_names [locChenet, locChenetAcc] (List.cons_ne_nil _ _)⟩
  simp +decide [process_multiple_names, List.mergeSort, List.merge, List.enum,
    List.enumFrom, locChenet, locChenetAcc]

/-- C7: whenever `_find_in_string` returns normally, any two distinct matches
of the returned list have non-overlapping substring spans (the result is
pairwise non-overlapping under `range_has_overlap`); `find_country_in_string`
and the region/city variants are direct wrappers of `_find_in_string`, so the
property carries over to them. -/
theorem claim_C7_find_in_string_no_overlap
    (sample : List Char) (clean_func : List Char → List Char)
    (normalize_func : List Char → ℚ → ℚ → Except PyErr (List Location))
    (blacklist whitelist_last_resort : List (List Char))
    (match_threshold match_threshold_small : ℚ)
    (threshold_small max_tokens_to_consider : ℕ)
    (res : List ExtractedLocation)
    (h : findInString sample clean_func normalize_func blacklist whitelist_last_resort
      match_threshold match_threshold_small threshold_small max_tokens_to_consider
      = .ok res) :
    res.Pairwise (fun a b => overlapB a b = false) := by
  simp only [findInString] at h
  split at h
  · injection h
  · split at h
    · injection h
    · injection h with h
      subst h
      exact resolveOverlaps_pairwise _

theorem claim_C7_witness :
    findInString ['a', 'b'] id nfToy [] [] 0 0 4 2 = .ok [elToy] ∧
    ([elToy] : List ExtractedLocation).Pairwise (fun a b => overlapB a b = false) := by
  have hval : findInString ['a', 'b'] id nfToy [] [] 0 0 4 2 = .ok [elToy] := by
    have h1 : gatherCombos (pySplit ['a', 'b'])
        (0 :: cumsumList ((pySplit ['a', 'b']).map List.length)) id nfToy [] 0 0 4 2
        = .ok [elToy] := by decide
    have hms : sortMatches [elToy] = [elToy] := by simp [sortMatches]
    have h2 : resolveOverlaps [elToy] = [elToy] := by
      rw [resolveOverlaps, hms]
      simp +decide [resolveLoop, resolveSweep, resolveStep, zeroOut]
    simp only [findInString, h1]
    simp [h2]
  exact ⟨hval, claim_C7_find_in_string_no_overlap _ _ _ _ _ _ _ _ _ _ hval⟩

/-- C9 (amended): the per-combination normalization threshold of
`_get_matches` is `match_threshold` exactly when the length of the
**combination substring** — equal to the `substring` field of the returned
match — exceeds `threshold_small`, and `match_threshold_small` otherwise; it
is decided before normalization runs and does not depend on the matched
canonical name. -/
theorem claim_C9_threshold_by_substring
    (combination : List Char) (token_start_idx : List ℕ) (start_idx : ℕ)
    (normalize_func : List Char → ℚ → ℚ → Except PyErr (List Location))
    (match_threshold match_threshold_small : ℚ) (threshold_small : ℕ)
    (m : ExtractedLocation)
    (h : getMatches combination token_start_idx start_idx normalize_func
      match_threshold match_threshold_small threshold_small = .ok (some m)) :
    m.substring = combination ∧
      selectThreshold combination match_threshold match_threshold_small threshold_small
        = (if threshold_small < m.substring.length then match_threshold
           else match_threshold_small) := by
  simp only [getMatches] at h
  split at h
  · injection h
  · split at h
    · injection h with h
      injection h
    · injection h with h
      injection h with h
      subst h
      exact ⟨rfl, rfl⟩

/-- C9 counterexample to the claim as stated: with the combination `"UK"`
matched to the canonical name `"United Kingdom"`, `match_threshold = 84/100`,
`match_threshold_small = 90/100` and `threshold_small = 4`, the code selects
`match_threshold_small = 90/100` (the combination `"UK"` has length `2 ≤ 4`),
while the rule keyed to the best matched canonical name (`"United Kingdom"`,
length `14 > 4`) would select `match_threshold = 84/100 ≠ 90/100`. -/
theorem claim_C9_counterexample :
    getMatches ['U', 'K'] [0] 0 nfUK (84/100) (90/100) 4 = .ok (some elUK) ∧
    selectThreshold ['U', 'K'] (84/100 : ℚ) (90/100) 4 = 90/100 ∧
    (if 4 < elUK.location.canonical_name.length then (84 : ℚ)/100 else 90/100)
      = 84/100 ∧
    (90 : ℚ)/100 ≠ 84/100 := by
  refine ⟨?_, ?_, ?_, by norm_num⟩
  · simp [getMatches, selectThreshold, nfUK, pyMax, elUK]
  · norm_num [selectThreshold]
  · norm_num [elUK, ukLoc]

/-- C9 witness: the amended theorem at the concrete `"UK"` instance. -/
theorem claim_C9_witness :
    getMatches ['U', 'K'] [0] 0 nfUK (84/100) (90/100) 4 = .ok (some elUK) ∧
    (elUK.substring = ['U', 'K'] ∧
      selectThreshold ['U', 'K'] (84/100 : ℚ) (90/100) 4
        = (if 4 < elUK.substring.length then (84 : ℚ)/100 else 90/100)) := by
  have hval : getMatches ['U', 'K'] [0] 0 nfUK (84/100) (90/100) 4
      = .ok (some elUK) := by
    simp [getMatches, selectThreshold, nfUK, pyMax, elUK]
  exact ⟨hval, claim_C9_threshold_by_substring _ _ _ _ _ _ _ _ hval⟩

/-- C1: contrary to the claimed `normalize_country("Denmark") ==
[("Denmark", "Denmark", None, 1.0)]`, an exact cleaned-string match never
returns a result: whenever the cleaned input is a key of the cleaned-location
map, `normalize_country` raises `TypeError` (the map stores
`(canonical_idx, idx)` pairs and the code indexes the `canonical_names` list
with the whole pair). -/
theorem claim_C1_normalize_country_raises
    (R : CountryResources) (clean_country : List Char → List Char)
    (country : List Char) (min_score_levenshtein min_score_trigram : ℚ)
    (h1 : clean_country country ≠ [])
    (h2 : (lookupAssoc R.cleaned_location_map (clean_country country)).isSome) :
    normalize_country R clean_country country min_score_levenshtein min_score_trigram
      = .error .typeError := by
  rw [normalize_country]
  simp [h1, h2]

/-- C1 witness: the spec's own example input `"Denmark"` (cleaned form
`"denmark"`, a key of the map) raises `TypeError`. -/
theorem claim_C1_witness :
    specCleanCountry ['D', 'e', 'n', 'm', 'a', 'r', 'k'] ≠ [] ∧
    (lookupAssoc denmarkResources.cleaned_location_map
      (specCleanCountry ['D', 'e', 'n', 'm', 'a', 'r', 'k'])).isSome ∧
    normalize_country denmarkResources specCleanCountry
      ['D', 'e', 'n', 'm', 'a', 'r', 'k'] (9/10) (1/2) = .error .typeError :=
  ⟨by decide, by decide,
    claim_C1_normalize_country_raises denmarkResources specCleanCountry
      ['D', 'e', 'n', 'm', 'a', 'r', 'k'] (9/10) (1/2) (by decide) (by decide)⟩

/-- C4: on the spec's example `"Fur Museum, 7884 Fur, Denmark."` (with the
default thresholds), `find_country_in_string` does not return the claimed
single Denmark match: the very first token combination `"Fur"` reaches
`normalize_country`, whose lookup misses, and the dead
`_COUNTRY_RESOURCES['replacements']` access raises `KeyError`, which
propagates out of the whole extraction. -/
theorem claim_C4_fur_museum_keyerror :
    find_country_in_string denmarkResources specCleanCountry
      ['F', 'u', 'r', ' ', 'M', 'u', 's', 'e', 'u', 'm', ',', ' ',
       '7', '8', '8', '4', ' ', 'F', 'u', 'r', ',', ' ',
       'D', 'e', 'n', 'm', 'a', 'r', 'k', '.']
      (84/100) (90/100) 4 4 = .error .keyError := by
  decide

/-- C5 (amended): the two score thresholds of `normalize_country` never
influence its outcome — the call with `min_score_levenshtein = 0.9` returns
exactly what the call with any other thresholds returns (so the claimed
subset relation holds degenerately wherever both calls return at all): the
empty cleaned string gives `[]`, and every other input raises. -/
theorem claim_C5_threshold_independent
    (R : CountryResources) (clean_country : List Char → List Char)
    (x : List Char) (msl mst msl' mst' : ℚ) :
    normalize_country R clean_country x msl mst
      = normalize_country R clean_country x msl' mst' ∧
    (clean_country x = [] →
      normalize_country R clean_country x msl mst = .ok []) ∧
    (clean_country x ≠ [] →
      ∃ e, normalize_country R clean_country x msl mst = .error e) := by
  refine ⟨rfl, ?_, ?_⟩
  · intro h
    rw [normalize_country]
    simp [h]
  · intro h
    rw [normalize_country]
    rw [if_neg h]
    by_cases h2 : (lookupAssoc R.cleaned_location_map (clean_country x)).isSome
    · exact ⟨.typeError, by rw [if_pos h2]⟩
    · exact ⟨.keyError, by rw [if_neg h2]⟩

/-- C5 counterexample to the claim as stated: on the input `"Denmark"` the
`min_score_levenshtein = 0.9` call does not return a list of matches whose
canonical names one could compare — it raises `TypeError`, and so does the
`min_score_levenshtein = 0.5` call. -/
theorem claim_C5_counterexample :
    normalize_country denmarkResources specCleanCountry
      ['D', 'e', 'n', 'm', 'a', 'r', 'k'] (9/10) (1/2) = .error .typeError ∧
    normalize_country denmarkResources specCleanCountry
      ['D', 'e', 'n', 'm', 'a', 'r', 'k'] (5/10) (1/2) = .error .typeError :=
  ⟨by decide, by decide⟩

/-- C5 witness: the amended theorem at the `"Denmark"` instance with the
claim's two threshold settings. -/
theorem claim_C5_witness :
    normalize_country denmarkResources specCleanCountry
      ['D', 'e', 'n', 'm', 'a', 'r', 'k'] (9/10) (1/2)
      = normalize_country denmarkResources specCleanCountry
        ['D', 'e', 'n', 'm', 'a', 'r', 'k'] (5/10) (1/2) ∧
    (specCleanCountry ['D', 'e', 'n', 'm', 'a', 'r', 'k'] = [] →
      normalize_country denmarkResources specCleanCountry
        ['D', 'e', 'n', 'm', 'a', 'r', 'k'] (9/10) (1/2) = .ok []) ∧
    (specCleanCountry ['D', 'e', 'n', 'm', 'a', 'r', 'k'] ≠ [] →
      ∃ e, normalize_country denmarkResources specCleanCountry
        ['D', 'e', 'n', 'm', 'a', 'r', 'k'] (9/10) (1/2) = .error e) :=
  claim_C5_threshold_independent denmarkResources specCleanCountry
    ['D', 'e', 'n', 'm', 'a', 'r', 'k'] (9/10) (1/2) (5/10) (1/2)

end TextScrubber
